import Mathlib

/-!
Verification of the async-flow-orchestrator workflow engine
(`src/workflow-engine.ts`, `src/context.ts`, `src/types.ts`).

The engine is embedded as a deterministic state machine.  JavaScript's
single-threaded event-loop semantics are modelled faithfully for the
constructs the engine uses:

* `context.set` publishes its `bind` event synchronously, and the engine's
  `async` bind listener runs synchronously up to its first `await`
  (launching ready processes, cascading through synchronously-skipped
  processes);
* every `await process.execute(...)` suspends; the pending work settlements
  are kept in a FIFO queue and processed in launch order (the schedule in
  which every work function takes equally long, which is one realizable
  schedule of the real program);
* a rejection of `executeProcess` launched from the bind listener is an
  unhandled promise rejection (the listener's promise is discarded by the
  event emitter), recorded in the `unhandled` flag;
* a rejection of a root-level `executeProcess` rejects the `Promise.all`
  awaited inside `execute`'s `try`, so `execute` returns the catch-block
  result.

Work functions and condition functions are modelled as pure functions of
the context snapshot at invocation time; a thrown exception is
`Except.error`.  The state carries ghost instrumentation (`trace`,
`invocations`, `workInvocations`, `condInvocations`, `unhandled`,
`fuelOut`) that records what happened without influencing the run.
-/

namespace AsyncFlow

/-- A JavaScript value stored in the workflow context.  `undef` models
`undefined`, which the engine binds for skipped and silently-failed
processes. -/
inductive Val where
  | undef
  | vnat (n : Nat)
  | vstr (s : String)
  deriving DecidableEq, Repr

/-- Errors are modelled by their message (work failures are normalized to
an `Error` in the source; here `Err` is the normalized message). -/
abbrev Err := String

/-- Process status (`ProcessStatus` in `types.ts`). -/
inductive Status where
  | pending
  | running
  | completed
  | skipped
  | failed
  deriving DecidableEq, Repr

/-- A status is settled (terminal) if it is completed, skipped or failed;
this is the readiness test used by `areDependenciesSatisfied`. -/
def Status.settled : Status → Bool
  | .completed => true
  | .skipped => true
  | .failed => true
  | _ => false

/-- Error handling strategy (`ErrorStrategy` in `types.ts`): `silent`
continues the workflow, `throwE` (the source's `'throw'`) aborts it. -/
inductive EStrat where
  | silent
  | throwE
  deriving DecidableEq, Repr

/-- Association-list update with JavaScript object/Map semantics: an
existing key keeps its position and is overwritten, a fresh key is
appended (insertion order). -/
def setKey {α : Type} : List (String × α) → String → α → List (String × α)
  | [], k, v => [(k, v)]
  | (k', v') :: rest, k, v =>
      if k' = k then (k, v) :: rest else (k', v') :: setKey rest k v

/-- First-match association-list lookup. -/
def lookupKey {α : Type} : List (String × α) → String → Option α
  | [], _ => none
  | (k', v') :: rest, k => if k' = k then some v' else lookupKey rest k

/-- Key membership in an association list. -/
def containsKey {α : Type} (l : List (String × α)) (k : String) : Bool :=
  (lookupKey l k).isSome

/-- The shared context (`Context` in `context.ts`): a plain object `data`
mapping process ids to values.  `data[id] = undefined` stores the key with
value `undefined`, so `has` (the `in` operator) is key membership and
`get` can return `undefined` without failing. -/
structure Ctx where
  data : List (String × Val)
  deriving DecidableEq, Repr

/-- `Context.set`: stores the value under the id.  In the source it also
logs completed processes and emits the `bind` event; the event dispatch is
modelled by the engine's step functions, and the status/logger arguments
do not influence the stored data. -/
def Ctx.set (c : Ctx) (id : String) (v : Val) (s : Status) : Ctx :=
  match s with
  | _ => ⟨setKey c.data id v⟩

/-- `Context.get`: returns the stored value, failing with the not-found
error if the id was never bound. -/
def Ctx.get (c : Ctx) (id : String) : Except Err Val :=
  match lookupKey c.data id with
  | some v => Except.ok v
  | none =>
      Except.error ("Process \"" ++ id ++ "\" result not found in context.")

/-- `Context.has`: existence probe (the `in` operator), never fails. -/
def Ctx.has (c : Ctx) (id : String) : Bool := containsKey c.data id

/-- `Context.getAll`: a copy of all current bindings. -/
def Ctx.getAll (c : Ctx) : List (String × Val) := c.data

/-- A process declaration (`Process` in `types.ts`).  The work function is
the source's `execute` field. -/
structure Process where
  id : String
  dependencies : List String
  work : Ctx → Except Err Val
  condition : Option (Ctx → Except Err Bool)
  errorStrategy : EStrat

/-- `Map.get` on the `processes` map (ids are unique after validation, so
first match is the map entry). -/
def lookupProcess (procs : List Process) (id : String) : Option Process :=
  procs.find? (fun p => p.id = id)

/-- Workflow configuration (`WorkflowConfig`).  `outputStrategy` is kept
as a raw string because the engine only ever compares it against
`"single"`. -/
structure WorkflowConfig where
  processes : List Process
  initialContext : List (String × Val)
  outputStrategy : String
  targetProcessId : Option String

/-- The result record built by `buildResult`. -/
structure WorkflowResult where
  context : List (String × Val)
  processStates : List (String × Status)
  errors : List (String × Err)
  deriving DecidableEq, Repr

/-- Which `Promise.all` awaits a launched process: the root launch inside
`execute`, or a launch from the bind-event listener (whose rejection
nobody handles). -/
inductive Origin where
  | root
  | handler
  deriving DecidableEq, Repr

/-- A pending work settlement: the continuation of
`await process.execute(context)`, with the result captured at invocation
time. -/
structure Settlement where
  pid : String
  result : Except Err Val
  origin : Origin

/-- The engine state.  Fields up to `queue` mirror the class fields of
`WorkflowEngine`; `resolverSet`/`resolved` model the completion promise;
the remaining fields are ghost instrumentation. -/
structure EngineState where
  processes : List Process
  states : List (String × Status)
  ctx : Ctx
  errors : List (String × Err)
  completedProcesses : List String
  inProgress : List String
  resolverSet : Bool
  resolved : Bool
  queue : List Settlement
  postRootDone : Bool
  unhandled : Bool
  fuelOut : Bool
  trace : List (String × Status)
  workInvocations : List String
  condInvocations : List String
  invocations : List String
  initialKeys : List String

/-- `areDependenciesSatisfied`: every dependency's status is settled. -/
def areDependenciesSatisfied (st : EngineState) (id : String) : Bool :=
  match lookupProcess st.processes id with
  | some p =>
      p.dependencies.all (fun d =>
        match lookupKey st.states d with
        | some s => s.settled
        | none => false)
  | none => false

/-- `findReadyProcesses`: pending processes, not already in progress, with
all dependencies settled, in state-map insertion order. -/
def findReadyProcesses (st : EngineState) : List String :=
  (st.states.filter (fun pr =>
    (pr.2 == Status.pending) && !(st.inProgress.contains pr.1)
      && areDependenciesSatisfied st pr.1)).map Prod.fst

/-- The `checkCompletion` listener: resolve the completion promise once
every process status is terminal. -/
def checkCompletion (st : EngineState) : EngineState :=
  if st.states.all (fun pr => pr.2.settled) && st.resolverSet then
    { st with resolved := true, resolverSet := false }
  else st

/-- `shouldExecuteProcess`: evaluate the optional condition; a raised
error is treated as `false`. -/
def shouldExecuteProcess (st : EngineState) (p : Process) : Bool :=
  match p.condition with
  | none => true
  | some c =>
      match c st.ctx with
      | Except.ok b => b
      | Except.error _ => false

/-- Record a status assignment (`state.status = ...`), both in the state
map and in the ghost trace. -/
def assignStatus (st : EngineState) (id : String) (s : Status) : EngineState :=
  { st with states := setKey st.states id s, trace := st.trace ++ [(id, s)] }

/-- A synchronous unit of work inside one event-loop burst: run
`executeProcess`'s synchronous part, launch a list of ready processes, or
dispatch a `bind` event to the listener. -/
inductive Task where
  | exec (id : String) (og : Origin)
  | launch (ids : List String) (og : Origin)
  | emitB (id : String)

/-- `executeProcess` entry (source lines 233-237): record the in-progress
mark; the ghost `invocations`/`condInvocations` lists log the call and
the condition evaluation. -/
def enterState (st : EngineState) (id : String) (p : Process) : EngineState :=
  { st with
    invocations := st.invocations ++ [id],
    inProgress := st.inProgress ++ [id],
    condInvocations :=
      if p.condition.isSome then st.condInvocations ++ [id]
      else st.condInvocations }

/-- The condition held: mark the process running and start its work
(source lines 248-252); the settlement is queued with the work result
captured on the current context. -/
def runState (st : EngineState) (id : String) (og : Origin) (p : Process) :
    EngineState :=
  let st2 := assignStatus st id .running
  { st2 with
    workInvocations := st2.workInvocations ++ [id],
    queue := st2.queue ++ [⟨id, p.work st2.ctx, og⟩] }

/-- The condition was false (or raised): mark the process skipped and bind
`undefined` (source lines 240-245). -/
def skipState (st : EngineState) (id : String) : EngineState :=
  let st2 := assignStatus st id .skipped
  { st2 with ctx := st2.ctx.set id .undef .skipped }

/-- The bind listener's completion bookkeeping (source lines 62-65). -/
def pushCompleted (st : EngineState) (id : String) : EngineState :=
  if (lookupProcess st.processes id).isSome then
    { st with completedProcesses := st.completedProcesses ++ [id] }
  else st

/-- Work succeeded (source lines 252-257): mark completed and bind the
value. -/
def settleOkState (st : EngineState) (pid : String) (v : Val) : EngineState :=
  let st2 := assignStatus st pid .completed
  { st2 with ctx := st2.ctx.set pid v .completed }

/-- Work failed (source lines 259-263): mark failed and record the
normalized error. -/
def settleFailState (st : EngineState) (pid : String) (e : Err) : EngineState :=
  let st2 := assignStatus st pid .failed
  { st2 with errors := setKey st2.errors pid e }

/-- A silent failure binds `undefined` to unblock dependents (source line
272). -/
def settleFailBind (st : EngineState) (pid : String) : EngineState :=
  { st with ctx := st.ctx.set pid .undef .failed }

/-- One synchronous burst of the engine.  `exec` is the synchronous part
of `executeProcess` (up to its `await`): it records the in-progress mark,
evaluates the condition, and either skips (binding `undefined`, which
synchronously dispatches a `bind` event) or marks the process running and
enqueues its work settlement.  `emitB` is the bind listener: it tracks the
completed process and either launches every ready process or emits
`checkCompletion`.  Fuel only bounds the recursion depth; `fuelOut`
records exhaustion. -/
def burst : Nat → Task → EngineState → EngineState
  | 0, _, st => { st with fuelOut := true }
  | _ + 1, .launch [] _, st => st
  | fuel + 1, .launch (id :: rest) og, st =>
      burst fuel (.launch rest og) (burst fuel (.exec id og) st)
  | fuel + 1, .exec id og, st =>
      match lookupProcess st.processes id with
      | none => st
      | some p =>
          let st1 := enterState st id p
          if shouldExecuteProcess st1 p then runState st1 id og p
          else burst fuel (.emitB id) (skipState st1 id)
  | fuel + 1, .emitB id, st =>
      let st1 := pushCompleted st id
      let ready := findReadyProcesses st1
      if ready.isEmpty then checkCompletion st1
      else burst fuel (.launch ready .handler) st1

/-- Whether a root-launched work settlement is still pending (i.e.
`execute`'s `Promise.all` over the roots has not yet fulfilled). -/
def hasRootEntries (st : EngineState) : Bool :=
  st.queue.any (fun q => q.origin == Origin.root)

/-- The defensive step `execute` performs right after its root
`Promise.all` fulfills (source lines 312-317): if no process is ready,
manually emit `checkCompletion`.  It runs exactly once, as soon as no
root-origin settlement remains outstanding. -/
def postRootStep (st : EngineState) : EngineState :=
  if st.postRootDone || hasRootEntries st then st
  else if (findReadyProcesses { st with postRootDone := true }).isEmpty then
    checkCompletion { st with postRootDone := true }
  else { st with postRootDone := true }

/-- `buildResult`: result record from a context snapshot and the current
states and errors. -/
def buildResult (st : EngineState) (rc : List (String × Val)) : WorkflowResult :=
  { context := rc, processStates := st.states, errors := st.errors }

/-- The result `execute` assembles on the normal path (after the
completion promise resolves): under `"single"` only the target process's
value; a not-found failure of `context.get` is caught by `execute`'s
catch block, which returns the full snapshot. -/
def finishResult (cfg : WorkflowConfig) (st : EngineState) : WorkflowResult :=
  if cfg.outputStrategy == "single" then
    match st.ctx.get (cfg.targetProcessId.getD "") with
    | Except.ok v => buildResult st [(cfg.targetProcessId.getD "", v)]
    | Except.error _ => buildResult st st.ctx.getAll
  else buildResult st st.ctx.getAll

/-- `errorStrategy` of a declared process. -/
def processStrategy (st : EngineState) (id : String) : Option EStrat :=
  (lookupProcess st.processes id).map (fun p => p.errorStrategy)

/-- How a run of `execute` ends: it returns the result record, it hangs
forever (the completion promise can no longer resolve), or the model ran
out of fuel. -/
inductive Outcome where
  | returned (r : WorkflowResult)
  | hung
  | fuelOut
  deriving DecidableEq, Repr

/-- The event loop after the initial root launch: process the pending work
settlements in order.  Each settlement is the continuation of
`await process.execute(...)` inside `executeProcess` (source lines
250-273): on success mark completed and bind the value; on failure mark
failed, record the error, and either re-throw (`throw` strategy — fatal
for a root launch, an unhandled rejection for a listener launch) or bind
`undefined` (`silent`).  When the completion promise has resolved,
`execute` resumes and assembles the result. -/
def loop (cfg : WorkflowConfig) : Nat → EngineState → Outcome × EngineState
  | 0, st => (.fuelOut, { st with fuelOut := true })
  | fuel + 1, st =>
      if st.resolved then (.returned (finishResult cfg st), st)
      else
        match st.queue with
        | [] => (.hung, st)
        | entry :: rest =>
            let st1 := { st with queue := rest }
            match entry.result with
            | Except.ok v =>
                let st3 := settleOkState st1 entry.pid v
                let st4 := burst fuel (.emitB entry.pid) st3
                loop cfg fuel (postRootStep st4)
            | Except.error e =>
                let st3 := settleFailState st1 entry.pid e
                if processStrategy st3 entry.pid == some EStrat.throwE then
                  match entry.origin with
                  | .root => (.returned (buildResult st3 st3.ctx.getAll), st3)
                  | .handler => loop cfg fuel { st3 with unhandled := true }
                else
                  let st5 := burst fuel (.emitB entry.pid) (settleFailBind st3 entry.pid)
                  loop cfg fuel (postRootStep st5)

/-- `getRootProcesses`: processes with no dependencies. -/
def getRootProcesses (procs : List Process) : List String :=
  (procs.filter (fun p => p.dependencies.isEmpty)).map (fun p => p.id)

/-- `execute` (source lines 294-336): launch all roots (the zero-roots
error is caught by `execute`'s own catch block, which returns a result
built from the pristine state), run the defensive completion check, then
react to settlements until the completion promise resolves. -/
def executeRun (cfg : WorkflowConfig) (fuel : Nat) (st0 : EngineState) :
    Outcome × EngineState :=
  let roots := getRootProcesses st0.processes
  if roots.isEmpty then (.returned (buildResult st0 st0.ctx.getAll), st0)
  else
    let st1 := { st0 with resolverSet := true }
    let st2 := burst fuel (.launch roots .root) st1
    loop cfg fuel (postRootStep st2)

/-- A frame of the `hasCycle` DFS (source lines 167-195): `visit p` is the
call `hasCycle(p)` (which marks `p` visited, pushes it on the recursion
stack and scans its dependencies); `scan p ds` is the dependency loop of
the call on `p`, with `ds` the dependencies still to examine. -/
inductive DfsCall where
  | visit (p : String)
  | scan (p : String) (ds : List String)

/-- The DFS of `detectCircularDependencies`.  The recursion stack is the
`stack` argument (the scan of `p` runs with `p` on the stack; popping is
implicit in returning to the caller's stack).  Returns the cycle verdict
(`none` = out of fuel, proved unreachable for `dfsFuel`) and the threaded
`visited` set, which grows by consing. -/
def dfsGo (procs : List Process) :
    Nat → DfsCall → List String → List String → Option Bool × List String
  | 0, _, visited, _ => (none, visited)
  | fuel + 1, .visit p, visited, stack =>
      let deps := match lookupProcess procs p with
        | some pr => pr.dependencies
        | none => []
      dfsGo procs fuel (.scan p deps) (p :: visited) (p :: stack)
  | _ + 1, .scan _ [], visited, _ => (some false, visited)
  | fuel + 1, .scan p (d :: rest), visited, stack =>
      if visited.contains d then
        if stack.contains d then (some true, visited)
        else dfsGo procs fuel (.scan p rest) visited stack
      else
        match dfsGo procs fuel (.visit d) visited stack with
        | (some false, v) => dfsGo procs fuel (.scan p rest) v stack
        | r => r

/-- Fuel that always suffices for `dfsGo` (proved below): every process
contributes one visit, one scan exhaustion, and one step per
dependency. -/
def dfsFuel (procs : List Process) : Nat :=
  procs.foldl (fun a p => a + p.dependencies.length + 2) 1

/-- Verdict of `detectCircularDependencies`. -/
inductive DetectResult where
  | cycleAt (id : String)
  | clean
  | fuelOut
  deriving DecidableEq, Repr

/-- Whether the detector reported a cycle. -/
def DetectResult.foundCycle : DetectResult → Bool
  | .cycleAt _ => true
  | _ => false

/-- The outer loop of `detectCircularDependencies`: a DFS from every
not-yet-visited process, in declaration order. -/
def detectAux (procs : List Process) :
    List Process → List String → DetectResult
  | [], _ => .clean
  | p :: rest, visited =>
      if visited.contains p.id then detectAux procs rest visited
      else
        match dfsGo procs (dfsFuel procs) (.visit p.id) visited [] with
        | (some true, _) => .cycleAt p.id
        | (some false, v) => detectAux procs rest v
        | (none, _) => .fuelOut

/-- `detectCircularDependencies` (source lines 167-195). -/
def detectCircularDependencies (procs : List Process) : DetectResult :=
  detectAux procs procs []

/-- First duplicate process id, in the order the validation loop finds
it. -/
def firstDupAux (seen : List String) : List Process → Option String
  | [] => none
  | p :: rest =>
      if seen.contains p.id then some p.id
      else firstDupAux (p.id :: seen) rest

/-- First (process, dependency) pair whose dependency is not a declared
process id, in validation order. -/
def firstMissingDep (ids : List String) : List Process → Option (String × String)
  | [] => none
  | p :: rest =>
      match p.dependencies.find? (fun d => !ids.contains d) with
      | some d => some (p.id, d)
      | none => firstMissingDep ids rest

/-- The fresh engine state right after a successful
`validateAndInitialize`: every process `pending`, initial context bindings
already stored (they are written before the validation and before the
bind listener is registered, so they emit no observable event). -/
def initState (cfg : WorkflowConfig) (ctx0 : Ctx) : EngineState :=
  { processes := cfg.processes
    states := cfg.processes.map (fun p => (p.id, Status.pending))
    ctx := ctx0
    errors := []
    completedProcesses := []
    inProgress := []
    resolverSet := false
    resolved := false
    queue := []
    postRootDone := false
    unhandled := false
    fuelOut := false
    trace := []
    workInvocations := []
    condInvocations := []
    invocations := []
    initialKeys := cfg.initialContext.map Prod.fst }

/-- The `WorkflowEngine` constructor: store the initial context bindings
(with status `completed`, but with no listener registered yet), then run
`validateAndInitialize`, whose checks fire in source order: the
`single`-without-target check, duplicate ids, unresolved dependencies,
cycle detection, and finally the existence of `targetProcessId`.  A
configuration error is raised synchronously, before any work function can
run. -/
def mkEngine (cfg : WorkflowConfig) : Except Err EngineState :=
  let ctx0 : Ctx :=
    cfg.initialContext.foldl (fun c kv => c.set kv.1 kv.2 .completed) ⟨[]⟩
  if cfg.outputStrategy == "single" && cfg.targetProcessId.isNone then
    Except.error "targetProcessId is required when outputStrategy is \"single\""
  else
    match firstDupAux [] cfg.processes with
    | some id => Except.error ("Duplicate process ID: " ++ id)
    | none =>
        let ids := cfg.processes.map (fun p => p.id)
        match firstMissingDep ids cfg.processes with
        | some pd =>
            Except.error ("Process \"" ++ pd.1
              ++ "\" depends on non-existent process \"" ++ pd.2 ++ "\"")
        | none =>
            match detectCircularDependencies cfg.processes with
            | .cycleAt id =>
                Except.error
                  ("Circular dependency detected involving process \""
                    ++ id ++ "\"")
            | .fuelOut => Except.error "dfs fuel exhausted"
            | .clean =>
                match cfg.targetProcessId with
                | some t =>
                    if ids.contains t then Except.ok (initState cfg ⟨ctx0.data⟩)
                    else
                      Except.error ("Target process \"" ++ t
                        ++ "\" does not exist")
                | none => Except.ok (initState cfg ⟨ctx0.data⟩)

/-- Construct the engine and execute the workflow: the behaviour of
`executeWorkflow(config)` / `new WorkflowEngine(config).execute()`.
Configuration errors surface as `Except.error`, synchronously, before any
execution. -/
def runFull (cfg : WorkflowConfig) (fuel : Nat) :
    Except Err (Outcome × EngineState) :=
  (mkEngine cfg).map (fun st => executeRun cfg fuel st)

/-! Concrete workflow fixtures used to evaluate the engine at specific
inputs. -/

/-- A work function that succeeds with a string value. -/
def okWork (s : String) : Ctx → Except Err Val := fun _ => Except.ok (Val.vstr s)

/-- A work function that throws. -/
def failWork (m : String) : Ctx → Except Err Val := fun _ => Except.error m

/-- A condition that returns `false` on every context. -/
def condFalse : Option (Ctx → Except Err Bool) := some (fun _ => Except.ok false)

/-- A condition that throws on every context. -/
def condBoom : Option (Ctx → Except Err Bool) := some (fun _ => Except.error "cond boom")

/-- Root `A` succeeds; `B` depends on `A`, fails, and has the abort
(`'throw'`) strategy.  The failure happens in a launch made by the
bind-event listener, whose rejection nobody awaits. -/
def cfgAbortMid : WorkflowConfig :=
  { processes := [
      ⟨"A", [], okWork "a", none, .silent⟩,
      ⟨"B", ["A"], failWork "boom", none, .throwE⟩ ],
    initialContext := []
    outputStrategy := "combined"
    targetProcessId := none }

/-- `runFull cfgAbortMid` hangs: outcome `hung` with no fuel exhaustion,
an unhandled rejection, and `B` marked failed. -/
def abortMidCheck : Bool :=
  match runFull cfgAbortMid 60 with
  | Except.ok (.hung, st) =>
      st.unhandled && !st.fuelOut
        && (lookupKey st.states "B" == some Status.failed)
        && (lookupKey st.errors "B" == some "boom")
  | _ => false

/-- Two roots: `A`'s condition is false (it skips synchronously during the
root launch loop), `B` is plain.  `A`'s skip binding makes the bind
listener launch `B` before the root loop reaches `B`, which then launches
`B` a second time. -/
def cfgDoubleLaunch : WorkflowConfig :=
  { processes := [
      ⟨"A", [], okWork "a", condFalse, .silent⟩,
      ⟨"B", [], okWork "b", none, .silent⟩ ],
    initialContext := []
    outputStrategy := "combined"
    targetProcessId := none }

/-- `B`'s work function is invoked twice in that run (and the run still
returns normally). -/
def doubleLaunchCheck : Bool :=
  match runFull cfgDoubleLaunch 60 with
  | Except.ok (.returned _, st) =>
      (st.workInvocations == ["B", "B"]) && !st.fuelOut && !st.unhandled
  | _ => false

/-- A single process whose condition is false. -/
def cfgSkipOnly : WorkflowConfig :=
  { processes := [ ⟨"X", [], okWork "x", condFalse, .silent⟩ ],
    initialContext := []
    outputStrategy := "combined"
    targetProcessId := none }

/-- In that run `X`'s full status-assignment trace is `[skipped]`: the
unit moves from `pending` directly to `skipped` and `running` is never
entered. -/
def skipOnlyCheck : Bool :=
  match runFull cfgSkipOnly 30 with
  | Except.ok (.returned r, st) =>
      (st.trace == [("X", Status.skipped)])
        && (lookupKey r.processStates "X" == some Status.skipped)
        && !st.fuelOut
  | _ => false

/-- A process depending on an identifier that only appears in the initial
context bindings. -/
def cfgInitDep : WorkflowConfig :=
  { processes := [ ⟨"P", ["init0"], okWork "p", none, .silent⟩ ],
    initialContext := [("init0", Val.vstr "v")]
    outputStrategy := "combined"
    targetProcessId := none }

/-- An `all`-style run (any non-`"single"` selection) with an initial
binding `E` and one declared process `P`. -/
def cfgAllExtra : WorkflowConfig :=
  { processes := [ ⟨"P", [], okWork "p", none, .silent⟩ ],
    initialContext := [("E", Val.vstr "x")]
    outputStrategy := "all"
    targetProcessId := none }

/-- The selected values of that run are keyed `["E", "P"]`: the initial
binding `E` appears even though it is not a declared identifier. -/
def allExtraCheck : Bool :=
  match runFull cfgAllExtra 30 with
  | Except.ok (.returned r, st) =>
      (r.context.map Prod.fst == ["E", "P"]) && !st.fuelOut
  | _ => false

/-- Duplicate declared ids combined with a `"single"` selection that lacks
its target. -/
def cfgDupNoTarget : WorkflowConfig :=
  { processes := [
      ⟨"P", [], okWork "p", none, .silent⟩,
      ⟨"P", [], okWork "q", none, .silent⟩ ],
    initialContext := []
    outputStrategy := "single"
    targetProcessId := none }

/-- A single unit whose condition throws on every context. -/
def cfgCondBoom : WorkflowConfig :=
  { processes := [ ⟨"C", [], okWork "c", condBoom, .silent⟩ ],
    initialContext := []
    outputStrategy := "combined"
    targetProcessId := none }

/-- The process's condition function exists and raises on every context. -/
def CondAlwaysThrows (p : Process) : Prop :=
  ∃ f, p.condition = some f ∧ ∀ c, ∃ e, f c = Except.error e

/-- The inductive invariant behind C8, for a unit `u` whose condition
always raises: `u` is declared with such a condition, no error is ever
recorded for `u`, `u` is only ever `pending` or `skipped`, `u` never has a
queued work settlement, and `u`'s work function is never invoked. -/
def Inv8 (u : String) (st : EngineState) : Prop :=
  (∃ p, lookupProcess st.processes u = some p ∧ CondAlwaysThrows p)
  ∧ lookupKey st.errors u = none
  ∧ (lookupKey st.states u = some Status.pending
      ∨ lookupKey st.states u = some Status.skipped)
  ∧ (∀ q ∈ st.queue, q.pid ≠ u)
  ∧ u ∉ st.workInvocations

/-- Duplicate declared ids under a well-formed (non-`"single"`) output
selection. -/
def cfgDup2 : WorkflowConfig :=
  { processes := [
      ⟨"P", [], okWork "p", none, .silent⟩,
      ⟨"P", [], okWork "q", none, .silent⟩ ],
    initialContext := []
    outputStrategy := "combined"
    targetProcessId := none }

/-- A dependency cycle `a → b → a`. -/
def procsCyc : List Process := [
  ⟨"a", ["b"], okWork "", none, .silent⟩,
  ⟨"b", ["a"], okWork "", none, .silent⟩ ]

/-- An acyclic graph: a diamond `a → {b, c} → d` plus a disconnected
root `e`. -/
def procsDiamond : List Process := [
  ⟨"a", [], okWork "", none, .silent⟩,
  ⟨"b", ["a"], okWork "", none, .silent⟩,
  ⟨"c", ["a"], okWork "", none, .silent⟩,
  ⟨"d", ["b", "c"], okWork "", none, .silent⟩,
  ⟨"e", [], okWork "", none, .silent⟩ ]

/-- The dependency edge relation of a declared process list: `edge a b`
when the process declared under `a` lists `b` as a dependency. -/
def edgeB (procs : List Process) (a b : String) : Bool :=
  match lookupProcess procs a with
  | some p => p.dependencies.contains b
  | none => false

/-- The declared dependency relation as a `Prop`. -/
def Edge (procs : List Process) (a b : String) : Prop := edgeB procs a b = true

/-- The dependency relation contains a cycle: some id reaches itself in
one or more edges. -/
def HasCycle (procs : List Process) : Prop :=
  ∃ a, Relation.TransGen (Edge procs) a a

/-- Remaining DFS work: every not-yet-visited process contributes its
dependency count plus two steps. -/
def dfsPotential (procs : List Process) (visited : List String) : Nat :=
  ((procs.filter (fun p => !visited.contains p.id)).map
    (fun p => p.dependencies.length + 2)).sum

/-- The DFS recursion stack read bottom-up: consecutive stack entries are
connected by dependency edges (each deeper entry is a dependency of the
entry below it). -/
def StackChain (procs : List Process) : List String → Prop
  | [] => True
  | [_] => True
  | a :: b :: rest => Edge procs b a ∧ StackChain procs (b :: rest)

/-- The finished ("black") nodes of the DFS — visited and off the stack —
are closed under dependency edges and lie on no cycle. -/
def BlackOK (procs : List Process) (V S : List String) : Prop :=
  ∀ b ∈ V, b ∉ S →
    (∀ d, Edge procs b d → d ∈ V ∧ d ∉ S)
      ∧ ¬ Relation.TransGen (Edge procs) b b

/-- The status-assignment trace never assigns `pending`: no unit re-enters
`pending` after initialization. -/
def NoPendingAssign (tr : List (String × Status)) : Prop :=
  ∀ e ∈ tr, e.2 ≠ Status.pending

/-- Every `completed` or `failed` assignment in the trace is preceded by a
`running` assignment of the same unit. -/
def RunBefore (tr : List (String × Status)) : Prop :=
  ∀ l₁ u c l₂, tr = l₁ ++ (u, c) :: l₂ →
    (c = Status.completed ∨ c = Status.failed) → (u, Status.running) ∈ l₁

/-- The status-assignment trace of a run (empty when construction fails). -/
def runTrace (cfg : WorkflowConfig) (fuel : Nat) : List (String × Status) :=
  match runFull cfg fuel with
  | Except.ok (_, st) => st.trace
  | Except.error _ => []

/-- A burst task that never executes the unit `u` directly. -/
def TaskAvoids (u : String) : Task → Prop
  | .exec id _ => id ≠ u
  | .launch ids _ => u ∉ ids
  | .emitB _ => True

/-- The declarations used by the C7 step theorem's concrete witness: a
silent unit `u` and a dependent `d`. -/
def procsC7 : List Process := [
  ⟨"u", [], failWork "boom", none, .silent⟩,
  ⟨"d", ["u"], okWork "d", none, .silent⟩ ]

/-- A configuration over `procsC7`. -/
def cfgC7 : WorkflowConfig :=
  { processes := procsC7
    initialContext := []
    outputStrategy := "combined"
    targetProcessId := none }

/-- A mid-run engine state: `u` is running with its failure settlement at
the head of the queue, `d` is pending. -/
def stC7 : EngineState :=
  { processes := procsC7
    states := [("u", Status.running), ("d", Status.pending)]
    ctx := ⟨[]⟩
    errors := []
    completedProcesses := []
    inProgress := ["u"]
    resolverSet := true
    resolved := false
    queue := [⟨"u", Except.error "boom", Origin.handler⟩]
    postRootDone := true
    unhandled := false
    fuelOut := false
    trace := [("u", Status.running)]
    workInvocations := ["u"]
    condInvocations := []
    invocations := ["u"]
    initialKeys := [] }

/-- The primitive state changes a synchronous burst is composed of.  Every
`burst` execution is a chain of these. -/
inductive Prim : EngineState → EngineState → Prop where
  | enter (st : EngineState) (id : String) (p : Process)
      (h : lookupProcess st.processes id = some p) : Prim st (enterState st id p)
  | runMark (st : EngineState) (id : String) (og : Origin) (p : Process)
      (h : lookupProcess st.processes id = some p)
      (hc : shouldExecuteProcess st p = true) : Prim st (runState st id og p)
  | skipMark (st : EngineState) (id : String) (p : Process)
      (h : lookupProcess st.processes id = some p)
      (hc : shouldExecuteProcess st p = false) : Prim st (skipState st id)
  | pushC (st : EngineState) (id : String) : Prim st (pushCompleted st id)
  | checkC (st : EngineState) : Prim st (checkCompletion st)
  | fuelMark (st : EngineState) : Prim st { st with fuelOut := true }

/-- `errorStrategy = silent` for the declared process `k`. -/
def PolicySilent (st : EngineState) (k : String) : Prop :=
  processStrategy st k = some EStrat.silent

/-- The run invariant: (1) state-map keys are unique; (2) `pending` is
never assigned; (3) every `completed`/`failed` assignment is preceded by a
`running` assignment of the same unit; (4) every queued settlement belongs
to a unit already marked running; (5) every queued settlement belongs to a
declared process; (6) a context key is bound exactly for the initial
bindings and the units that settled through a binding (completed, skipped,
or silently failed); (7) a unit whose status is `skipped` is bound to
`undefined`; (8) a silently-failed unit is bound to `undefined`. -/
def MegaInv (st : EngineState) : Prop :=
  (st.states.map Prod.fst).Nodup
  ∧ NoPendingAssign st.trace
  ∧ RunBefore st.trace
  ∧ (∀ q ∈ st.queue, (q.pid, Status.running) ∈ st.trace)
  ∧ (∀ q ∈ st.queue, (lookupProcess st.processes q.pid).isSome)
  ∧ (∀ k, st.ctx.has k = true ↔
      (k ∈ st.initialKeys ∨ (k, Status.completed) ∈ st.trace
        ∨ (k, Status.skipped) ∈ st.trace
        ∨ ((k, Status.failed) ∈ st.trace ∧ PolicySilent st k)))
  ∧ (∀ u, lookupKey st.states u = some Status.skipped →
      lookupKey st.ctx.data u = some Val.undef)
  ∧ (∀ u, lookupKey st.states u = some Status.failed → PolicySilent st u →
      lookupKey st.ctx.data u = some Val.undef)

/-- The engine state with nothing in it (used as the default of
`finalState` when construction failed). -/
def emptyState : EngineState :=
  { processes := []
    states := []
    ctx := ⟨[]⟩
    errors := []
    completedProcesses := []
    inProgress := []
    resolverSet := false
    resolved := false
    queue := []
    postRootDone := false
    unhandled := false
    fuelOut := false
    trace := []
    workInvocations := []
    condInvocations := []
    invocations := []
    initialKeys := [] }

/-- The final engine state of a run (`emptyState` when construction
failed). -/
def finalState (cfg : WorkflowConfig) (fuel : Nat) : EngineState :=
  match runFull cfg fuel with
  | Except.ok (_, st) => st
  | Except.error _ => emptyState

/-- The result record of a run that returned (`none` when construction
failed, the run hung, or the model ran out of fuel). -/
def runResult (cfg : WorkflowConfig) (fuel : Nat) : Option WorkflowResult :=
  match runFull cfg fuel with
  | Except.ok (Outcome.returned r, _) => some r
  | _ => none

/-! ## Theorems -/

theorem burst_chain (P : EngineState → EngineState → Prop)
    (hrefl : ∀ st, P st st)
    (htrans : ∀ {a b c : EngineState}, P a b → P b c → P a c)
    (hprim : ∀ {a b : EngineState}, Prim a b → P a b) :
    ∀ (f : Nat) (t : Task) (st : EngineState), P st (burst f t st) := by
  intro f
  induction f with
  | zero => intro t st; exact hprim (Prim.fuelMark st)
  | succ n ih =>
      intro t st
      cases t with
      | launch ids og =>
          cases ids with
          | nil => simpa [burst] using hrefl st
          | cons id rest =>
              simp only [burst]
              exact htrans (ih (.exec id og) st) (ih (.launch rest og) _)
      | exec id og =>
          simp only [burst]
          split
          · exact hrefl st
          · next p heq =>
              split
              · next hc =>
                  refine htrans (hprim (Prim.enter st id p heq)) (hprim ?_)
                  refine Prim.runMark _ id og p ?_ hc
                  simpa [enterState] using heq
              · next hc =>
                  refine htrans (htrans (hprim (Prim.enter st id p heq))
                    (hprim ?_)) (ih (.emitB id) _)
                  refine Prim.skipMark _ id p ?_ (by simpa using hc)
                  simpa [enterState] using heq
      | emitB id =>
          simp only [burst]
          split
          · exact htrans (hprim (Prim.pushC st id)) (hprim (Prim.checkC _))
          · exact htrans (hprim (Prim.pushC st id)) (ih (.launch _ .handler) _)

theorem prim_const {a b : EngineState} (h : Prim a b) :
    b.processes = a.processes ∧ b.initialKeys = a.initialKeys
      ∧ b.errors = a.errors ∧ b.unhandled = a.unhandled
      ∧ b.postRootDone = a.postRootDone := by
  cases h with
  | enter id p h => simp [enterState]
  | runMark id og p h hc => simp [runState, assignStatus]
  | skipMark id p h hc => simp [skipState, assignStatus]
  | pushC id => unfold pushCompleted; split <;> simp
  | checkC => unfold checkCompletion; split <;> simp
  | fuelMark => simp

theorem burst_const (f : Nat) (t : Task) (st : EngineState) :
    (burst f t st).processes = st.processes
      ∧ (burst f t st).initialKeys = st.initialKeys
      ∧ (burst f t st).errors = st.errors
      ∧ (burst f t st).unhandled = st.unhandled
      ∧ (burst f t st).postRootDone = st.postRootDone := by
  refine burst_chain (fun a b => b.processes = a.processes
    ∧ b.initialKeys = a.initialKeys ∧ b.errors = a.errors
    ∧ b.unhandled = a.unhandled ∧ b.postRootDone = a.postRootDone)
    (fun st => by simp) ?_ (fun h => prim_const h) f t st
  rintro a b c ⟨h1, h2, h3, h4, h5⟩ ⟨g1, g2, g3, g4, g5⟩
  exact ⟨g1.trans h1, g2.trans h2, g3.trans h3, g4.trans h4, g5.trans h5⟩

theorem prim_prefixes {a b : EngineState} (h : Prim a b) :
    a.trace <+: b.trace ∧ a.invocations <+: b.invocations
      ∧ a.workInvocations <+: b.workInvocations ∧ a.queue <+: b.queue := by
  cases h with
  | enter id p h => simp [enterState]
  | runMark id og p h hc => simp [runState, assignStatus]
  | skipMark id p h hc => simp [skipState, assignStatus]
  | pushC id => unfold pushCompleted; split <;> simp
  | checkC => unfold checkCompletion; split <;> simp
  | fuelMark => simp

theorem burst_prefixes (f : Nat) (t : Task) (st : EngineState) :
    st.trace <+: (burst f t st).trace
      ∧ st.invocations <+: (burst f t st).invocations
      ∧ st.workInvocations <+: (burst f t st).workInvocations
      ∧ st.queue <+: (burst f t st).queue := by
  refine burst_chain (fun a b => a.trace <+: b.trace
    ∧ a.invocations <+: b.invocations
    ∧ a.workInvocations <+: b.workInvocations ∧ a.queue <+: b.queue)
    (fun st => by simp) ?_ (fun h => prim_prefixes h) f t st
  rintro a b c ⟨h1, h2, h3, h4⟩ ⟨g1, g2, g3, g4⟩
  exact ⟨h1.trans g1, h2.trans g2, h3.trans g3, h4.trans g4⟩

theorem runBefore_snoc {tr : List (String × Status)} {e : String × Status}
    (h : RunBefore tr)
    (he : e.2 = Status.completed ∨ e.2 = Status.failed →
      (e.1, Status.running) ∈ tr) :
    RunBefore (tr ++ [e]) := by
  intro l₁ u c l₂ heq hc
  rcases List.eq_nil_or_concat l₂ with rfl | ⟨l₂', x, rfl⟩
  · obtain ⟨h1, h2⟩ := List.append_inj' heq (by simp)
    simp at h2
    subst h1
    rw [h2] at he
    exact he hc
  · simp only [List.concat_eq_append] at heq
    rw [show l₁ ++ (u, c) :: (l₂' ++ [x]) = (l₁ ++ (u, c) :: l₂') ++ [x] by
      simp] at heq
    obtain ⟨h1, h2⟩ := List.append_inj' heq (by simp)
    exact h l₁ u c l₂' h1 hc

theorem megaInv_of_eqFields {a b : EngineState} (h : MegaInv a)
    (hs : b.states = a.states) (ht : b.trace = a.trace)
    (hq : b.queue = a.queue) (hc : b.ctx = a.ctx)
    (hpr : b.processes = a.processes) (hik : b.initialKeys = a.initialKeys) :
    MegaInv b := by
  unfold MegaInv PolicySilent processStrategy Ctx.has at *
  rw [hs, ht, hq, hc, hpr, hik]
  exact h

theorem lookupKey_setKey_self {α : Type} (l : List (String × α)) (k : String) (v : α) :
    lookupKey (setKey l k v) k = some v := by
  induction l with
  | nil => simp [setKey, lookupKey]
  | cons hd tl ih =>
      by_cases h : hd.1 = k
      · simp [setKey, h, lookupKey]
      · simpa [setKey, h, lookupKey] using ih

theorem lookupKey_setKey_other {α : Type} (l : List (String × α)) (k k' : String) (v : α)
    (h : k' ≠ k) : lookupKey (setKey l k v) k' = lookupKey l k' := by
  have h' : ¬(k = k') := fun he => h he.symm
  induction l with
  | nil => simp [setKey, lookupKey, h']
  | cons hd tl ih =>
      by_cases hk : hd.1 = k
      · subst hk
        simp [setKey, lookupKey, h']
      · by_cases hk' : hd.1 = k'
        · subst hk'
          simp [setKey, hk, lookupKey]
        · simpa [setKey, hk, lookupKey, hk'] using ih

theorem lookupKey_mem {α : Type} {l : List (String × α)} {k : String} {v : α}
    (h : lookupKey l k = some v) : (k, v) ∈ l := by
  induction l with
  | nil => simp [lookupKey] at h
  | cons hd tl ih =>
      by_cases hk : hd.1 = k
      · simp [lookupKey, hk] at h
        cases hd
        simp_all
      · simp [lookupKey, hk] at h
        exact List.mem_cons_of_mem _ (ih h)

theorem mem_lookupKey {α : Type} {l : List (String × α)} {k : String} {v : α}
    (nd : (l.map Prod.fst).Nodup) (h : (k, v) ∈ l) : lookupKey l k = some v := by
  induction l with
  | nil => simp at h
  | cons hd tl ih =>
      simp only [List.map_cons, List.nodup_cons] at nd
      rcases List.mem_cons.mp h with h | h
      · subst h; simp [lookupKey]
      · have hk : hd.1 ≠ k := by
          intro he
          exact nd.1 (he ▸ (List.mem_map.mpr ⟨(k, v), h, rfl⟩))
        simp [lookupKey, hk]
        exact ih nd.2 h

theorem keys_setKey {α : Type} (l : List (String × α)) (k : String) (v : α) :
    (setKey l k v).map Prod.fst = l.map Prod.fst
      ∨ (setKey l k v).map Prod.fst = l.map Prod.fst ++ [k] := by
  induction l with
  | nil => right; simp [setKey]
  | cons hd tl ih =>
      by_cases hk : hd.1 = k
      · left; simp [setKey, hk]
      · rcases ih with ih | ih
        · left; simp [setKey, hk, ih]
        · right; simp [setKey, hk, ih]

theorem nodupKeys_setKey {α : Type} {l : List (String × α)} (k : String) (v : α)
    (nd : (l.map Prod.fst).Nodup) : ((setKey l k v).map Prod.fst).Nodup := by
  induction l with
  | nil => simp [setKey]
  | cons hd tl ih =>
      simp only [List.map_cons, List.nodup_cons] at nd
      by_cases hk : hd.1 = k
      · subst hk
        simpa [setKey] using nd
      · simp only [setKey, hk, if_false, List.map_cons, List.nodup_cons]
        refine ⟨?_, ih nd.2⟩
        intro hmem
        rcases keys_setKey tl k v with he | he
        · exact nd.1 (he ▸ hmem)
        · rw [he, List.mem_append] at hmem
          rcases hmem with hmem | hmem
          · exact nd.1 hmem
          · simp_all

theorem prim_megaInv {a b : EngineState} (hp : Prim a b) (h : MegaInv a) :
    MegaInv b := by
  obtain ⟨hN, hT1, hT2, hQ1, hQ2, hK1, hU1, hU2⟩ := h
  cases hp with
  | enter id p hpe =>
      exact megaInv_of_eqFields ⟨hN, hT1, hT2, hQ1, hQ2, hK1, hU1, hU2⟩
        (by simp [enterState]) (by simp [enterState]) (by simp [enterState])
        (by simp [enterState]) (by simp [enterState]) (by simp [enterState])
  | pushC id =>
      refine megaInv_of_eqFields ⟨hN, hT1, hT2, hQ1, hQ2, hK1, hU1, hU2⟩
        ?_ ?_ ?_ ?_ ?_ ?_ <;> (unfold pushCompleted; split <;> simp)
  | checkC =>
      refine megaInv_of_eqFields ⟨hN, hT1, hT2, hQ1, hQ2, hK1, hU1, hU2⟩
        ?_ ?_ ?_ ?_ ?_ ?_ <;> (unfold checkCompletion; split <;> simp)
  | fuelMark =>
      exact megaInv_of_eqFields ⟨hN, hT1, hT2, hQ1, hQ2, hK1, hU1, hU2⟩
        (by simp) (by simp) (by simp) (by simp) (by simp) (by simp)
  | runMark id og p hpe hc =>
      refine ⟨?_, ?_, ?_, ?_, ?_, ?_, ?_, ?_⟩
      · simpa [runState, assignStatus] using
          nodupKeys_setKey id Status.running hN
      · intro e he
        simp only [runState, assignStatus, List.mem_append,
          List.mem_singleton] at he
        rcases he with he | he
        · exact hT1 e he
        · subst he; simp
      · have := runBefore_snoc (e := (id, Status.running)) hT2 (by simp)
        simpa [runState, assignStatus] using this
      · intro q hq
        simp only [runState, assignStatus, List.mem_append,
          List.mem_singleton] at hq
        rcases hq with hq | hq
        · exact List.mem_append_left _ (hQ1 q hq)
        · subst hq
          simp [runState, assignStatus]
      · intro q hq
        simp only [runState, assignStatus, List.mem_append,
          List.mem_singleton] at hq
        rcases hq with hq | hq
        · simpa [runState, assignStatus] using hQ2 q hq
        · subst hq
          simp [runState, assignStatus, hpe]
      · intro k
        have := hK1 k
        simp only [MegaInv, PolicySilent, processStrategy, Ctx.has,
          containsKey] at this ⊢
        simpa [runState, assignStatus] using this
      · intro u hu
        simp only [runState, assignStatus] at hu ⊢
        by_cases he : u = id
        · subst he
          rw [lookupKey_setKey_self] at hu
          simp at hu
        · rw [lookupKey_setKey_other _ _ _ _ he] at hu
          exact hU1 u hu
      · intro u hu hpol
        simp only [runState, assignStatus] at hu ⊢
        by_cases he : u = id
        · subst he
          rw [lookupKey_setKey_self] at hu
          simp at hu
        · rw [lookupKey_setKey_other _ _ _ _ he] at hu
          refine hU2 u hu ?_
          simpa [PolicySilent, processStrategy, runState, assignStatus]
            using hpol
  | skipMark id p hpe hc =>
      refine ⟨?_, ?_, ?_, ?_, ?_, ?_, ?_, ?_⟩
      · simpa [skipState, assignStatus] using
          nodupKeys_setKey id Status.skipped hN
      · intro e he
        simp only [skipState, assignStatus, List.mem_append,
          List.mem_singleton] at he
        rcases he with he | he
        · exact hT1 e he
        · subst he; simp
      · have := runBefore_snoc (e := (id, Status.skipped)) hT2 (by simp)
        simpa [skipState, assignStatus] using this
      · intro q hq
        simp only [skipState, assignStatus] at hq
        exact List.mem_append_left _ (hQ1 q hq)
      · intro q hq
        simp only [skipState, assignStatus] at hq
        simpa [skipState, assignStatus] using hQ2 q hq
      · intro k
        have := hK1 k
        by_cases he : k = id
        · subst he
          simp only [skipState, assignStatus, Ctx.has, containsKey, Ctx.set,
            lookupKey_setKey_self, Option.isSome_some]
          simp
        · have hother :
              lookupKey (setKey a.ctx.data id Val.undef) k = lookupKey a.ctx.data k :=
            lookupKey_setKey_other _ _ _ _ he
          simp only [skipState, assignStatus, Ctx.has, containsKey, Ctx.set,
            PolicySilent, processStrategy] at this ⊢
          rw [hother]
          simpa [he] using this
      · intro u hu
        simp only [skipState, assignStatus, Ctx.set] at hu ⊢
        by_cases he : u = id
        · subst he
          rw [lookupKey_setKey_self]
        · rw [lookupKey_setKey_other _ _ _ _ he] at hu
          rw [lookupKey_setKey_other _ _ _ _ he]
          exact hU1 u hu
      · intro u hu hpol
        simp only [skipState, assignStatus, Ctx.set] at hu ⊢
        by_cases he : u = id
        · subst he
          rw [lookupKey_setKey_self] at hu
          simp at hu
        · rw [lookupKey_setKey_other _ _ _ _ he] at hu
          rw [lookupKey_setKey_other _ _ _ _ he]
          refine hU2 u hu ?_
          simpa [PolicySilent, processStrategy, skipState, assignStatus]
            using hpol

theorem burst_megaInv (f : Nat) (t : Task) (st : EngineState)
    (h : MegaInv st) : MegaInv (burst f t st) := by
  exact burst_chain (fun a b => MegaInv a → MegaInv b) (fun _ hx => hx)
    (fun hab hbc hx => hbc (hab hx)) (fun hp hx => prim_megaInv hp hx) f t st h

theorem containsKey_setKey {α : Type} (l : List (String × α)) (k k' : String) (v : α) :
    containsKey (setKey l k v) k' = true ↔ k' = k ∨ containsKey l k' = true := by
  by_cases he : k' = k
  · subst he
    simp [containsKey, lookupKey_setKey_self]
  · simp [containsKey, lookupKey_setKey_other _ _ _ _ he, he]

theorem megaInv_pop {st : EngineState} {entry : Settlement}
    {rest : List Settlement} (h : MegaInv st) (hq : st.queue = entry :: rest) :
    MegaInv { st with queue := rest } := by
  obtain ⟨hN, hT1, hT2, hQ1, hQ2, hK1, hU1, hU2⟩ := h
  refine ⟨hN, hT1, hT2, ?_, ?_, hK1, hU1, hU2⟩
  · intro q hmem
    exact hQ1 q (by rw [hq]; exact List.mem_cons_of_mem _ hmem)
  · intro q hmem
    exact hQ2 q (by rw [hq]; exact List.mem_cons_of_mem _ hmem)

theorem settleOk_megaInv {st : EngineState} {pid : String} {v : Val}
    (h : MegaInv st) (hrun : (pid, Status.running) ∈ st.trace) :
    MegaInv (settleOkState st pid v) := by
  obtain ⟨hN, hT1, hT2, hQ1, hQ2, hK1, hU1, hU2⟩ := h
  refine ⟨?_, ?_, ?_, ?_, ?_, ?_, ?_, ?_⟩
  · simpa [settleOkState, assignStatus] using
      nodupKeys_setKey pid Status.completed hN
  · intro e he
    simp only [settleOkState, assignStatus, List.mem_append,
      List.mem_singleton] at he
    rcases he with he | he
    · exact hT1 e he
    · subst he; simp
  · have := runBefore_snoc (e := (pid, Status.completed)) hT2 (by simpa)
    simpa [settleOkState, assignStatus] using this
  · intro q hq
    simp only [settleOkState, assignStatus] at hq
    exact List.mem_append_left _ (hQ1 q hq)
  · intro q hq
    simp only [settleOkState, assignStatus] at hq
    simpa [settleOkState, assignStatus] using hQ2 q hq
  · intro k
    have := hK1 k
    by_cases he : k = pid
    · subst he
      simp only [settleOkState, assignStatus, Ctx.has, containsKey, Ctx.set,
        lookupKey_setKey_self, Option.isSome_some]
      simp
    · have hother :
          lookupKey (setKey st.ctx.data pid v) k = lookupKey st.ctx.data k :=
        lookupKey_setKey_other _ _ _ _ he
      simp only [settleOkState, assignStatus, Ctx.has, containsKey, Ctx.set,
        PolicySilent, processStrategy] at this ⊢
      rw [hother]
      simpa [he] using this
  · intro u hu
    simp only [settleOkState, assignStatus, Ctx.set] at hu ⊢
    by_cases he : u = pid
    · subst he
      rw [lookupKey_setKey_self] at hu
      simp at hu
    · rw [lookupKey_setKey_other _ _ _ _ he] at hu
      rw [lookupKey_setKey_other _ _ _ _ he]
      exact hU1 u hu
  · intro u hu hpol
    simp only [settleOkState, assignStatus, Ctx.set] at hu ⊢
    by_cases he : u = pid
    · subst he
      rw [lookupKey_setKey_self] at hu
      simp at hu
    · rw [lookupKey_setKey_other _ _ _ _ he] at hu
      rw [lookupKey_setKey_other _ _ _ _ he]
      refine hU2 u hu ?_
      simpa [PolicySilent, processStrategy, settleOkState, assignStatus]
        using hpol

theorem settleFailThrow_megaInv {st : EngineState} {pid : String} {e : Err}
    (h : MegaInv st) (hrun : (pid, Status.running) ∈ st.trace)
    (hpol : processStrategy st pid = some EStrat.throwE) :
    MegaInv (settleFailState st pid e) := by
  obtain ⟨hN, hT1, hT2, hQ1, hQ2, hK1, hU1, hU2⟩ := h
  refine ⟨?_, ?_, ?_, ?_, ?_, ?_, ?_, ?_⟩
  · simpa [settleFailState, assignStatus] using
      nodupKeys_setKey pid Status.failed hN
  · intro x hx
    simp only [settleFailState, assignStatus, List.mem_append,
      List.mem_singleton] at hx
    rcases hx with hx | hx
    · exact hT1 x hx
    · subst hx; simp
  · have := runBefore_snoc (e := (pid, Status.failed)) hT2 (by simpa)
    simpa [settleFailState, assignStatus] using this
  · intro q hq
    simp only [settleFailState, assignStatus] at hq
    exact List.mem_append_left _ (hQ1 q hq)
  · intro q hq
    simp only [settleFailState, assignStatus] at hq
    simpa [settleFailState, assignStatus] using hQ2 q hq
  · intro k
    have := hK1 k
    by_cases he : k = pid
    · subst he
      have hps : ¬ PolicySilent (settleFailState st k e) k := by
        simp [PolicySilent, processStrategy, settleFailState, assignStatus]
        simp [PolicySilent, processStrategy] at hpol
        intro p hp
        rcases hpol with ⟨p', hp', hp2'⟩
        rw [hp'] at hp
        cases hp
        rw [hp2']
        simp
      simp only [settleFailState, assignStatus, Ctx.has, containsKey] at this ⊢
      rw [this]
      constructor
      · intro hx
        rcases hx with hx | hx | hx | ⟨hx, hxp⟩
        · exact Or.inl hx
        · exact Or.inr (Or.inl (List.mem_append_left _ hx))
        · exact Or.inr (Or.inr (Or.inl (List.mem_append_left _ hx)))
        · exact absurd (by
            simpa [PolicySilent, processStrategy, settleFailState,
              assignStatus] using hxp) (by
            simpa [PolicySilent, processStrategy, settleFailState,
              assignStatus] using hps)
      · intro hx
        rcases hx with hx | hx | hx | ⟨hx, hxp⟩
        · exact Or.inl hx
        · simp only [List.mem_append, List.mem_singleton] at hx
          rcases hx with hx | hx
          · exact Or.inr (Or.inl hx)
          · simp at hx
        · simp only [List.mem_append, List.mem_singleton] at hx
          rcases hx with hx | hx
          · exact Or.inr (Or.inr (Or.inl hx))
          · simp at hx
        · exact absurd hxp (by
            simpa [PolicySilent, processStrategy, settleFailState,
              assignStatus] using hps)
    · simp only [settleFailState, assignStatus, Ctx.has, containsKey,
        PolicySilent, processStrategy] at this ⊢
      simpa [he] using this
  · intro u hu
    simp only [settleFailState, assignStatus] at hu ⊢
    by_cases he : u = pid
    · subst he
      rw [lookupKey_setKey_self] at hu
      simp at hu
    · rw [lookupKey_setKey_other _ _ _ _ he] at hu
      exact hU1 u hu
  · intro u hu hpol'
    simp only [settleFailState, assignStatus] at hu ⊢
    by_cases he : u = pid
    · subst he
      have : PolicySilent st u := by
        simpa [PolicySilent, processStrategy, settleFailState, assignStatus]
          using hpol'
      rw [PolicySilent, hpol] at this
      simp at this
    · rw [lookupKey_setKey_other _ _ _ _ he] at hu
      refine hU2 u hu ?_
      simpa [PolicySilent, processStrategy, settleFailState, assignStatus]
        using hpol'

theorem settleFailSilent_megaInv {st : EngineState} {pid : String} {e : Err}
    (h : MegaInv st) (hrun : (pid, Status.running) ∈ st.trace)
    (hpol : processStrategy st pid = some EStrat.silent) :
    MegaInv (settleFailBind (settleFailState st pid e) pid) := by
  obtain ⟨hN, hT1, hT2, hQ1, hQ2, hK1, hU1, hU2⟩ := h
  refine ⟨?_, ?_, ?_, ?_, ?_, ?_, ?_, ?_⟩
  · simpa [settleFailBind, settleFailState, assignStatus] using
      nodupKeys_setKey pid Status.failed hN
  · intro x hx
    simp only [settleFailBind, settleFailState, assignStatus, List.mem_append,
      List.mem_singleton] at hx
    rcases hx with hx | hx
    · exact hT1 x hx
    · subst hx; simp
  · have := runBefore_snoc (e := (pid, Status.failed)) hT2 (by simpa)
    simpa [settleFailBind, settleFailState, assignStatus] using this
  · intro q hq
    simp only [settleFailBind, settleFailState, assignStatus] at hq
    exact List.mem_append_left _ (hQ1 q hq)
  · intro q hq
    simp only [settleFailBind, settleFailState, assignStatus] at hq
    simpa [settleFailBind, settleFailState, assignStatus] using hQ2 q hq
  · intro k
    have := hK1 k
    by_cases he : k = pid
    · subst he
      constructor
      · intro _
        refine Or.inr (Or.inr (Or.inr ⟨?_, ?_⟩))
        · simp [settleFailBind, settleFailState, assignStatus]
        · simpa [PolicySilent, processStrategy, settleFailBind,
            settleFailState, assignStatus] using hpol
      · intro _
        simp [settleFailBind, settleFailState, assignStatus, Ctx.has,
          containsKey, Ctx.set, lookupKey_setKey_self]
    · have hother :
          lookupKey (setKey (settleFailState st pid e).ctx.data pid Val.undef) k
            = lookupKey st.ctx.data k := by
        rw [lookupKey_setKey_other _ _ _ _ he]
        simp [settleFailState, assignStatus]
      simp only [settleFailBind, settleFailState, assignStatus, Ctx.has,
        containsKey, Ctx.set, PolicySilent, processStrategy] at this ⊢
      rw [show lookupKey (setKey st.ctx.data pid Val.undef) k
          = lookupKey st.ctx.data k from lookupKey_setKey_other _ _ _ _ he]
      simpa [he] using this
  · intro u hu
    simp only [settleFailBind, settleFailState, assignStatus, Ctx.set] at hu ⊢
    by_cases he : u = pid
    · subst he
      rw [lookupKey_setKey_self] at hu
      simp at hu
    · rw [lookupKey_setKey_other _ _ _ _ he] at hu
      rw [lookupKey_setKey_other _ _ _ _ he]
      exact hU1 u hu
  · intro u hu hpol'
    simp only [settleFailBind, settleFailState, assignStatus, Ctx.set] at hu ⊢
    by_cases he : u = pid
    · subst he
      rw [lookupKey_setKey_self]
    · rw [lookupKey_setKey_other _ _ _ _ he] at hu
      rw [lookupKey_setKey_other _ _ _ _ he]
      refine hU2 u hu ?_
      simpa [PolicySilent, processStrategy, settleFailBind, settleFailState,
        assignStatus] using hpol'

theorem postRootStep_fields (st : EngineState) :
    (postRootStep st).states = st.states ∧ (postRootStep st).trace = st.trace
      ∧ (postRootStep st).queue = st.queue ∧ (postRootStep st).ctx = st.ctx
      ∧ (postRootStep st).processes = st.processes
      ∧ (postRootStep st).initialKeys = st.initialKeys
      ∧ (postRootStep st).errors = st.errors
      ∧ (postRootStep st).unhandled = st.unhandled
      ∧ (postRootStep st).invocations = st.invocations
      ∧ (postRootStep st).workInvocations = st.workInvocations := by
  unfold postRootStep
  split
  · simp
  · split
    · unfold checkCompletion
      split <;> simp
    · simp

theorem postRoot_megaInv {st : EngineState} (h : MegaInv st) :
    MegaInv (postRootStep st) := by
  obtain ⟨h1, h2, h3, h4, h5, h6, h7, h8, h9, h10⟩ := postRootStep_fields st
  exact megaInv_of_eqFields h h1 h2 h3 h4 h5 h6

theorem firstDupAux_none :
    ∀ (procs : List Process) (seen : List String),
      firstDupAux seen procs = none →
        (procs.map (fun p => p.id)).Nodup ∧ ∀ p ∈ procs, p.id ∉ seen := by
  intro procs
  induction procs with
  | nil => intro seen _; simp
  | cons p rest ih =>
      intro seen h
      unfold firstDupAux at h
      by_cases hc : p.id ∈ seen
      · simp [hc] at h
      · have hcc : ¬(seen.contains p.id = true) := fun x => hc (List.elem_iff.mp x)
        rw [if_neg hcc] at h
        obtain ⟨hnd, hseen⟩ := ih (p.id :: seen) h
        have hnotmem : p.id ∉ seen := hc
        refine ⟨?_, ?_⟩
        · simp only [List.map_cons, List.nodup_cons]
          refine ⟨?_, hnd⟩
          intro hm
          rcases List.mem_map.mp hm with ⟨q, hq, hqe⟩
          exact hseen q hq (by rw [hqe]; exact List.mem_cons_self _ _)
        · intro q hq
          rcases List.mem_cons.mp hq with rfl | hq
          · exact hnotmem
          · intro hm
            exact hseen q hq (List.mem_cons_of_mem _ hm)

theorem lookupKey_map_pending {procs : List Process} {u : String} {s : Status}
    (h : lookupKey (procs.map (fun p => (p.id, Status.pending))) u = some s) :
    s = Status.pending := by
  induction procs with
  | nil => simp [lookupKey] at h
  | cons p rest ih =>
      simp only [List.map_cons, lookupKey] at h
      by_cases he : p.id = u
      · simp [he] at h; exact h.symm
      · simp [he] at h; exact ih h

theorem initCtx_contains (l : List (String × Val)) (k : String) :
    ∀ c : Ctx,
      containsKey ((l.foldl (fun c kv => c.set kv.1 kv.2 .completed) c).data) k
        = true ↔ k ∈ l.map Prod.fst ∨ containsKey c.data k = true := by
  induction l with
  | nil => intro c; simp
  | cons kv rest ih =>
      intro c
      simp only [List.foldl_cons, List.map_cons, List.mem_cons]
      rw [ih]
      rw [show (c.set kv.1 kv.2 .completed).data = setKey c.data kv.1 kv.2
        from rfl]
      rw [containsKey_setKey]
      tauto

theorem processStrategy_settleFail (st : EngineState) (pid pid' : String) (e : Err) :
    processStrategy (settleFailState st pid e) pid' = processStrategy st pid' := by
  simp [processStrategy, settleFailState, assignStatus]

theorem strategy_of_not_throw {st : EngineState} {pid : String}
    (hsome : (lookupProcess st.processes pid).isSome = true)
    (hn : ¬ processStrategy st pid = some EStrat.throwE) :
    processStrategy st pid = some EStrat.silent := by
  rcases ho : lookupProcess st.processes pid with _ | p
  · rw [ho] at hsome; simp at hsome
  · cases hs : p.errorStrategy with
    | silent => simp [processStrategy, ho, hs]
    | throwE => exact absurd (by simp [processStrategy, ho, hs]) hn

theorem loop_megaInv (cfg : WorkflowConfig) :
    ∀ (f : Nat) (st : EngineState), MegaInv st → MegaInv (loop cfg f st).2 := by
  intro f
  induction f with
  | zero =>
      intro st h
      exact megaInv_of_eqFields h (by simp [loop]) (by simp [loop])
        (by simp [loop]) (by simp [loop]) (by simp [loop]) (by simp [loop])
  | succ n ih =>
      intro st h
      have hrunhead : ∀ entry rest, st.queue = entry :: rest →
          (entry.pid, Status.running) ∈ st.trace := by
        intro entry rest hq
        exact h.2.2.2.1 entry (by rw [hq]; exact List.mem_cons_self _ _)
      simp only [loop]
      split
      · exact h
      · split
        · exact h
        · next entry rest hq =>
            split
            · next v hv =>
                refine ih _ (postRoot_megaInv (burst_megaInv _ _ _ ?_))
                exact settleOk_megaInv (megaInv_pop h hq)
                  (by simpa using hrunhead entry rest hq)
            · next e he =>
                have hrun : (entry.pid, Status.running) ∈
                    ({ st with queue := rest } : EngineState).trace := by
                  simpa using hrunhead entry rest hq
                split
                · next hstrat =>
                    have hstrat' : processStrategy { st with queue := rest }
                        entry.pid = some EStrat.throwE := by
                      rw [beq_iff_eq] at hstrat
                      rw [← hstrat]
                      exact (processStrategy_settleFail _ _ _ _).symm
                    split
                    · exact settleFailThrow_megaInv (megaInv_pop h hq) hrun hstrat'
                    · refine ih _ ?_
                      have h3 := @settleFailThrow_megaInv _ _ e
                        (megaInv_pop h hq) hrun hstrat'
                      exact megaInv_of_eqFields h3 (by simp) (by simp)
                        (by simp) (by simp) (by simp) (by simp)
                · next hstrat =>
                    refine ih _ (postRoot_megaInv (burst_megaInv _ _ _ ?_))
                    refine settleFailSilent_megaInv (megaInv_pop h hq) hrun ?_
                    have hsome : (lookupProcess
                        ({ st with queue := rest } : EngineState).processes
                        entry.pid).isSome = true := by
                      simpa using h.2.2.2.2.1 entry
                        (by rw [hq]; exact List.mem_cons_self _ _)
                    refine strategy_of_not_throw hsome ?_
                    intro hx
                    apply hstrat
                    rw [beq_iff_eq]
                    rw [processStrategy_settleFail]
                    exact hx

theorem executeRun_megaInv (cfg : WorkflowConfig) (f : Nat) (st0 : EngineState)
    (h : MegaInv st0) : MegaInv (executeRun cfg f st0).2 := by
  simp only [executeRun]
  split
  · exact h
  · refine loop_megaInv cfg f _ (postRoot_megaInv (burst_megaInv _ _ _ ?_))
    exact megaInv_of_eqFields h (by simp) (by simp) (by simp) (by simp)
      (by simp) (by simp)

theorem initState_megaInv (cfg : WorkflowConfig) (c0 : Ctx)
    (hnd : (cfg.processes.map (fun p => p.id)).Nodup)
    (hK : ∀ k, containsKey c0.data k = true ↔
      k ∈ cfg.initialContext.map Prod.fst) :
    MegaInv (initState cfg c0) := by
  refine ⟨?_, ?_, ?_, ?_, ?_, ?_, ?_, ?_⟩
  · simpa [initState, List.map_map, Function.comp] using hnd
  · intro e he
    simp [initState] at he
  · intro l₁ u c l₂ heq hc
    exact absurd heq (by cases l₁ <;> simp [initState])
  · intro q hq
    simp [initState] at hq
  · intro q hq
    simp [initState] at hq
  · intro k
    simp only [initState, Ctx.has]
    rw [hK k]
    simp
  · intro u hu
    simp only [initState] at hu
    exact absurd (lookupKey_map_pending hu) (by simp)
  · intro u hu
    simp only [initState] at hu
    exact absurd (lookupKey_map_pending hu) (by simp)

theorem mkEngine_megaInv {cfg : WorkflowConfig} {st : EngineState}
    (h : mkEngine cfg = Except.ok st) : MegaInv st := by
  simp only [mkEngine] at h
  by_cases h1 : (cfg.outputStrategy == "single"
      && cfg.targetProcessId.isNone) = true
  · rw [if_pos h1] at h
    exact absurd h (by simp)
  · rw [if_neg h1] at h
    cases hdup : firstDupAux [] cfg.processes with
    | some d =>
        simp only [hdup] at h
        exact absurd h (by simp)
    | none =>
        simp only [hdup] at h
        have hnd := (firstDupAux_none cfg.processes [] hdup).1
        have hK : ∀ k,
            containsKey ((cfg.initialContext.foldl
              (fun c kv => c.set kv.1 kv.2 .completed)
              (⟨[]⟩ : Ctx)).data) k = true ↔
              k ∈ cfg.initialContext.map Prod.fst := by
          intro k
          rw [initCtx_contains]
          simp [containsKey, lookupKey]
        cases hmiss : firstMissingDep (cfg.processes.map (fun p => p.id))
            cfg.processes with
        | some pd =>
            simp only [hmiss] at h
            exact absurd h (by simp)
        | none =>
            simp only [hmiss] at h
            cases hdet : detectCircularDependencies cfg.processes with
            | cycleAt d =>
                simp only [hdet] at h
                exact absurd h (by simp)
            | fuelOut =>
                simp only [hdet] at h
                exact absurd h (by simp)
            | clean =>
                simp only [hdet] at h
                cases htgt : cfg.targetProcessId with
                | some t =>
                    simp only [htgt] at h
                    by_cases hc :
                        ((cfg.processes.map (fun p => p.id)).contains t) = true
                    · rw [if_pos hc] at h
                      simp only [Except.ok.injEq] at h
                      rw [← h]
                      exact initState_megaInv _ _ hnd hK
                    · rw [if_neg hc] at h
                      exact absurd h (by simp)
                | none =>
                    simp only [htgt, Except.ok.injEq] at h
                    rw [← h]
                    exact initState_megaInv _ _ hnd hK

theorem runFull_megaInv {cfg : WorkflowConfig} {fuel : Nat} {oc : Outcome}
    {st : EngineState} (h : runFull cfg fuel = Except.ok (oc, st)) :
    MegaInv st := by
  unfold runFull at h
  cases hmk : mkEngine cfg with
  | error e => rw [hmk] at h; exact absurd h (by simp [Except.map])
  | ok st0 =>
      rw [hmk] at h
      simp only [Except.map, Except.ok.injEq] at h
      have hst : (executeRun cfg fuel st0).2 = st := by rw [h]
      rw [← hst]
      exact executeRun_megaInv cfg fuel st0 (mkEngine_megaInv hmk)

/-- C1: the claim says the top-level `execute` always returns the result
record and terminates even when an abort-policy (`'throw'`) unit fails
mid-run, never letting an execution error escape as an unhandled fault.
The code violates this: in `cfgAbortMid` (root `A` succeeds, dependent `B`
fails under the `'throw'` strategy) the rejection is raised inside the
bind-event listener, which nobody awaits, so it becomes an unhandled
promise rejection, no `bind` event is published for `B`, the completion
promise never resolves, and `execute` hangs — even though `B` is indeed
marked `failed` with its error recorded. -/
theorem c1_nonroot_abort_hangs : abortMidCheck = true := by decide

/-- C2: the claim says a unit's work function is invoked at most once per
run.  The code violates this: in `cfgDoubleLaunch` (root `A` skips
synchronously via a false condition, root `B` is plain), the bind event of
`A`'s skip makes the listener launch `B` before the root launch loop of
`execute` reaches `B`, and the loop — which iterates a list computed
before any launch, without re-checking — launches `B` again: `B`'s work
function runs exactly twice. -/
theorem c2_duplicate_launch : doubleLaunchCheck = true := by decide

/-- C3 counterexample: a single unit `X` whose condition is false ends the
run with status-assignment trace `[(X, skipped)]` — `X` moves from
`pending` directly to `skipped` and the `running` status is never entered,
contradicting the claim that `running` is entered exactly once before any
terminal status including `skipped`. -/
theorem c3_counterexample_skip_bypasses_running : skipOnlyCheck = true := by
  decide

/-- C3 (amended): in every run, no unit ever re-enters `pending` (it is
never assigned after initialization), and every `completed` or `failed`
status assignment is preceded by a `running` assignment of the same unit;
`skipped`, however, is entered directly from `pending` without passing
through `running` (see the counterexample), and the duplicate-launch flaw
(C2) can repeat the `running`/terminal assignments. -/
theorem c3_status_path (cfg : WorkflowConfig) (fuel : Nat) :
    NoPendingAssign (runTrace cfg fuel) ∧ RunBefore (runTrace cfg fuel) := by
  unfold runTrace
  cases hr : runFull cfg fuel with
  | error e =>
      constructor
      · intro x hx
        simp at hx
      · intro l₁ u c l₂ heq hc
        exact absurd heq (by cases l₁ <;> simp)
  | ok p =>
      obtain ⟨oc, st⟩ := p
      have h := runFull_megaInv hr
      exact ⟨h.2.1, h.2.2.1⟩

/-- C10: for every unit that ends skipped, or failed under the silent
policy, the engine has bound the value `undefined` under the unit's
identifier: afterwards `has(id)` returns `true` and `get(id)` returns
`undefined` without raising the not-found error.  Moreover the context's
`set` stores the same data regardless of the status argument (the status
is only used for logging and the bind event), so this no-value marker is
indistinguishable from a work function that legitimately produced
`undefined`. -/
theorem c10_undef_marker :
    (∀ (cfg : WorkflowConfig) (fuel : Nat) (oc : Outcome) (st : EngineState)
      (u : String),
      runFull cfg fuel = Except.ok (oc, st) →
      (lookupKey st.states u = some Status.skipped
        ∨ (lookupKey st.states u = some Status.failed ∧ PolicySilent st u)) →
      st.ctx.has u = true ∧ st.ctx.get u = Except.ok Val.undef)
    ∧ (∀ (c : Ctx) (id : String) (v : Val) (s₁ s₂ : Status),
        Ctx.set c id v s₁ = Ctx.set c id v s₂) := by
  constructor
  · intro cfg fuel oc st u hr hu
    have h := runFull_megaInv hr
    have hlook : lookupKey st.ctx.data u = some Val.undef := by
      rcases hu with hu | ⟨hu, hpol⟩
      · exact h.2.2.2.2.2.2.1 u hu
      · exact h.2.2.2.2.2.2.2 u hu hpol
    constructor
    · simp [Ctx.has, containsKey, hlook]
    · simp [Ctx.get, hlook]
  · intro c id v s₁ s₂
    cases s₁ <;> cases s₂ <;> rfl

/-- Witness for C10 at the concrete run `cfgSkipOnly` (a single unit `X`
with a false condition): after that run `has("X")` is true and `get("X")`
returns `undefined`. -/
theorem c10_undef_marker_witness :
    (finalState cfgSkipOnly 30).ctx.has "X" = true
      ∧ (finalState cfgSkipOnly 30).ctx.get "X" = Except.ok Val.undef := by
  have hok : (runFull cfgSkipOnly 30).isOk = true := by decide
  cases hr : runFull cfgSkipOnly 30 with
  | error e => rw [hr] at hok; simp [Except.isOk, Except.toBool] at hok
  | ok p =>
      obtain ⟨oc, st⟩ := p
      have hfs : finalState cfgSkipOnly 30 = st := by
        unfold finalState; rw [hr]
      rw [hfs]
      refine c10_undef_marker.1 cfgSkipOnly 30 oc st "X" hr ?_
      left
      rw [← hfs]
      decide

theorem loop_const (cfg : WorkflowConfig) :
    ∀ (f : Nat) (st : EngineState),
      (loop cfg f st).2.processes = st.processes
        ∧ (loop cfg f st).2.initialKeys = st.initialKeys := by
  intro f
  induction f with
  | zero => intro st; simp [loop]
  | succ n ih =>
      intro st
      simp only [loop]
      split
      · simp
      · split
        · simp
        · next entry rest hq =>
            split
            · next v hv =>
                constructor
                · rw [(ih _).1]
                  simp [postRootStep_fields, (burst_const _ _ _).1,
                    settleOkState, assignStatus]
                · rw [(ih _).2]
                  simp [postRootStep_fields, (burst_const _ _ _).2.1,
                    settleOkState, assignStatus]
            · next e he =>
                split
                · split
                  · simp [settleFailState, assignStatus]
                  · constructor
                    · rw [(ih _).1]
                      simp [settleFailState, assignStatus]
                    · rw [(ih _).2]
                      simp [settleFailState, assignStatus]
                · constructor
                  · rw [(ih _).1]
                    simp [postRootStep_fields, (burst_const _ _ _).1,
                      settleFailBind, settleFailState, assignStatus]
                  · rw [(ih _).2]
                    simp [postRootStep_fields, (burst_const _ _ _).2.1,
                      settleFailBind, settleFailState, assignStatus]

theorem mkEngine_ok_shape {cfg : WorkflowConfig} {st : EngineState}
    (h : mkEngine cfg = Except.ok st) :
    (∃ c0 : Ctx, st = initState cfg c0)
      ∧ firstDupAux [] cfg.processes = none
      ∧ firstMissingDep (cfg.processes.map (fun p => p.id)) cfg.processes = none
      ∧ detectCircularDependencies cfg.processes = DetectResult.clean := by
  simp only [mkEngine] at h
  by_cases h1 : (cfg.outputStrategy == "single"
      && cfg.targetProcessId.isNone) = true
  · rw [if_pos h1] at h
    exact absurd h (by simp)
  · rw [if_neg h1] at h
    cases hdup : firstDupAux [] cfg.processes with
    | some d =>
        simp only [hdup] at h
        exact absurd h (by simp)
    | none =>
        simp only [hdup] at h
        cases hmiss : firstMissingDep (cfg.processes.map (fun p => p.id))
            cfg.processes with
        | some pd =>
            simp only [hmiss] at h
            exact absurd h (by simp)
        | none =>
            simp only [hmiss] at h
            cases hdet : detectCircularDependencies cfg.processes with
            | cycleAt d =>
                simp only [hdet] at h
                exact absurd h (by simp)
            | fuelOut =>
                simp only [hdet] at h
                exact absurd h (by simp)
            | clean =>
                simp only [hdet] at h
                cases htgt : cfg.targetProcessId with
                | some t =>
                    simp only [htgt] at h
                    by_cases hc :
                        ((cfg.processes.map (fun p => p.id)).contains t) = true
                    · rw [if_pos hc] at h
                      simp only [Except.ok.injEq] at h
                      exact ⟨⟨_, h.symm⟩, by simp [hdup], by simp [hmiss], by simp [hdet]⟩
                    · rw [if_neg hc] at h
                      exact absurd h (by simp)
                | none =>
                    simp only [htgt, Except.ok.injEq] at h
                    exact ⟨⟨_, h.symm⟩, by simp [hdup], by simp [hmiss], by simp [hdet]⟩

theorem loop_resolved_returns (cfg : WorkflowConfig) :
    ∀ (f : Nat) (st : EngineState) (r : WorkflowResult) (st' : EngineState),
      loop cfg f st = (Outcome.returned r, st') → st'.resolved = true →
      r = finishResult cfg st' := by
  intro f
  induction f with
  | zero =>
      intro st r st' h hres
      simp [loop] at h
  | succ n ih =>
      intro st r st' h hres
      simp only [loop] at h
      split at h
      · next hr =>
          simp only [Prod.mk.injEq, Outcome.returned.injEq] at h
          rw [← h.2, ← h.1]
      · next hr =>
          split at h
          · simp at h
          · next entry rest hq =>
              split at h
              · next v hv => exact ih _ _ _ h hres
              · next e he =>
                  split at h
                  · next hstrat =>
                      split at h
                      · simp only [Prod.mk.injEq, Outcome.returned.injEq] at h
                        exfalso
                        have hsf : st'.resolved = st.resolved := by
                          rw [← h.2]
                          simp [settleFailState, assignStatus]
                        rw [Bool.not_eq_true] at hr
                        rw [hsf, hr] at hres
                        cases hres
                      · exact ih _ _ _ h hres
                  · next hstrat => exact ih _ _ _ h hres

theorem runFull_resolved_returns {cfg : WorkflowConfig} {fuel : Nat}
    {r : WorkflowResult} {st : EngineState}
    (h : runFull cfg fuel = Except.ok (Outcome.returned r, st))
    (hres : st.resolved = true) : r = finishResult cfg st := by
  unfold runFull at h
  cases hmk : mkEngine cfg with
  | error e => rw [hmk] at h; exact absurd h (by simp [Except.map])
  | ok st0 =>
      rw [hmk] at h
      simp only [Except.map, Except.ok.injEq] at h
      obtain ⟨⟨c0, hc0⟩, -, -, -⟩ := mkEngine_ok_shape hmk
      simp only [executeRun] at h
      split at h
      · simp only [Prod.mk.injEq, Outcome.returned.injEq] at h
        exfalso
        have : st.resolved = false := by
          rw [← h.2, hc0]
          simp [initState]
        rw [this] at hres
        cases hres
      · exact loop_resolved_returns cfg fuel _ r st h hres

theorem runFull_const {cfg : WorkflowConfig} {fuel : Nat} {oc : Outcome}
    {st : EngineState} (h : runFull cfg fuel = Except.ok (oc, st)) :
    st.processes = cfg.processes
      ∧ st.initialKeys = cfg.initialContext.map Prod.fst := by
  unfold runFull at h
  cases hmk : mkEngine cfg with
  | error e => rw [hmk] at h; exact absurd h (by simp [Except.map])
  | ok st0 =>
      rw [hmk] at h
      simp only [Except.map, Except.ok.injEq] at h
      obtain ⟨⟨c0, hc0⟩, -, -, -⟩ := mkEngine_ok_shape hmk
      have h0 : st0.processes = cfg.processes
          ∧ st0.initialKeys = cfg.initialContext.map Prod.fst := by
        rw [hc0]; simp [initState]
      simp only [executeRun] at h
      split at h
      · simp only [Prod.mk.injEq] at h
        rw [← h.2]
        exact h0
      · have hl := loop_const cfg fuel
          (postRootStep (burst fuel
            (Task.launch (getRootProcesses st0.processes) Origin.root)
            { st0 with resolverSet := true }))
        rw [h] at hl
        rcases hl with ⟨hl1, hl2⟩
        constructor
        · rw [hl1]
          rw [(postRootStep_fields _).2.2.2.2.1, (burst_const _ _ _).1]
          exact h0.1
        · rw [hl2]
          rw [(postRootStep_fields _).2.2.2.2.2.1, (burst_const _ _ _).2.1]
          exact h0.2

/-- C6 counterexample: in a completed `"all"` run with one declared
process `P` and an initial binding `E`, the selected-values part of the
result is keyed `["E", "P"]`, not exactly the declared identifiers — the
claim that the result contains exactly the identifiers requested by the
output selection is false (and no code path implements a `'multiple'`
selection at all: everything except `"single"` falls through to the full
snapshot). -/
theorem c6_counterexample_all_includes_initial : allExtraCheck = true := by
  decide

/-- C6 (amended): on the normal (resolved) return path, a `"single"`
selection whose target is bound returns exactly the target identifier's
value; every other selection string (there is no `'multiple'` branch)
returns the entire context snapshot — whose keys are exactly the initial
bindings plus every unit that settled through a binding (completed,
skipped, or silently failed); abort-failed units are absent from it. -/
theorem c6_output_selection (cfg : WorkflowConfig) (fuel : Nat)
    (r : WorkflowResult) (st : EngineState)
    (h : runFull cfg fuel = Except.ok (Outcome.returned r, st))
    (hres : st.resolved = true) :
    (cfg.outputStrategy ≠ "single" →
      r.context = st.ctx.data
        ∧ ∀ k, containsKey st.ctx.data k = true ↔
            (k ∈ cfg.initialContext.map Prod.fst
              ∨ (k, Status.completed) ∈ st.trace
              ∨ (k, Status.skipped) ∈ st.trace
              ∨ ((k, Status.failed) ∈ st.trace ∧ PolicySilent st k)))
    ∧ (∀ t v, cfg.outputStrategy = "single" → cfg.targetProcessId = some t →
        lookupKey st.ctx.data t = some v → r.context = [(t, v)]) := by
  have hfin := runFull_resolved_returns h hres
  have hK := (runFull_megaInv h).2.2.2.2.2.1
  have hik := (runFull_const h).2
  constructor
  · intro hns
    constructor
    · rw [hfin]
      unfold finishResult
      rw [if_neg (by simpa using hns)]
      rfl
    · intro k
      have := hK k
      rw [← hik]
      simpa [Ctx.has] using this
  · intro t v hss htgt hlook
    rw [hfin]
    unfold finishResult
    rw [if_pos (by simp [hss])]
    rw [htgt]
    simp only [Option.getD_some]
    unfold Ctx.get
    rw [hlook]
    rfl

/-- Witness for C6 at the concrete run `cfgAllExtra` (selection `"all"`,
one process, one initial binding): the returned selected values are the
full context snapshot. -/
theorem c6_output_selection_witness :
    (runResult cfgAllExtra 30).map WorkflowResult.context
      = some (finalState cfgAllExtra 30).ctx.data := by
  have hbool : (match runFull cfgAllExtra 30 with
    | Except.ok (Outcome.returned _, _) => true
    | _ => false) = true := by decide
  cases hr : runFull cfgAllExtra 30 with
  | error e => rw [hr] at hbool; simp at hbool
  | ok p =>
      obtain ⟨oc, st⟩ := p
      cases oc with
      | hung => rw [hr] at hbool; simp at hbool
      | fuelOut => rw [hr] at hbool; simp at hbool
      | returned r =>
          have hfs : finalState cfgAllExtra 30 = st := by
            unfold finalState; rw [hr]
          have hres : st.resolved = true := by rw [← hfs]; decide
          have hctx := ((c6_output_selection cfgAllExtra 30 r st hr hres).1
            (by decide)).1
          unfold runResult
          rw [hr]
          simp [hfs, hctx]

theorem firstMissingDep_none :
    ∀ (procs : List Process) (ids : List String),
      firstMissingDep ids procs = none →
        ∀ p ∈ procs, ∀ d ∈ p.dependencies, d ∈ ids := by
  intro procs
  induction procs with
  | nil => intro ids _ p hp; simp at hp
  | cons q rest ih =>
      intro ids h p hp d hd
      unfold firstMissingDep at h
      cases hf : q.dependencies.find? (fun d => !ids.contains d) with
      | some d' => rw [hf] at h; simp at h
      | none =>
          rw [hf] at h
          rcases List.mem_cons.mp hp with rfl | hp
          · have := List.find?_eq_none.mp hf d hd
            simpa using this
          · exact ih ids h p hp d hd

/-- C5 counterexample: a unit `P` depending on the identifier `init0`,
which is supplied only as an initial context binding, is rejected at
construction with the unresolved-dependency error — the initial binding
does not make `P` launchable, contradicting the claim that initial
bindings are treated as already-completed units for readiness. -/
theorem c5_counterexample_initial_binding_not_launchable :
    runFull cfgInitDep 10
      = Except.error
          "Process \"P\" depends on non-existent process \"init0\"" := rfl

/-- C5 (amended): initial context bindings are stored in the shared
context without any validation against the unit graph (every key is
accepted and is visible through `has` and the full snapshot), but they
play no role in readiness: the readiness predicate reads only the unit
status map — it does not consult the context at all — and every declared
dependency must name a declared unit, so a dependency satisfiable only by
an initial binding is rejected as unresolved. -/
theorem c5_initial_bindings
    (cfg : WorkflowConfig) (fuel : Nat) (oc : Outcome) (st : EngineState)
    (h : runFull cfg fuel = Except.ok (oc, st)) :
    (∀ k ∈ cfg.initialContext.map Prod.fst, st.ctx.has k = true)
      ∧ (∀ (s : EngineState) (c : Ctx),
          findReadyProcesses { s with ctx := c } = findReadyProcesses s)
      ∧ (∀ p ∈ cfg.processes, ∀ d ∈ p.dependencies,
          d ∈ cfg.processes.map (fun q => q.id)) := by
  refine ⟨?_, ?_, ?_⟩
  · intro k hk
    have hK := (runFull_megaInv h).2.2.2.2.2.1 k
    have hik := (runFull_const h).2
    rw [hK]
    rw [hik]
    exact Or.inl hk
  · intro s c
    rfl
  · unfold runFull at h
    cases hmk : mkEngine cfg with
    | error e => rw [hmk] at h; exact absurd h (by simp [Except.map])
    | ok st0 =>
        obtain ⟨-, -, hmiss, -⟩ := mkEngine_ok_shape hmk
        exact firstMissingDep_none cfg.processes _ hmiss

/-- Witness for C5 at the concrete run `cfgAllExtra`: the initial binding
`E` is present in the final context. -/
theorem c5_initial_bindings_witness :
    (finalState cfgAllExtra 30).ctx.has "E" = true := by
  have hok : (runFull cfgAllExtra 30).isOk = true := by decide
  cases hr : runFull cfgAllExtra 30 with
  | error e => rw [hr] at hok; simp [Except.isOk, Except.toBool] at hok
  | ok p =>
      obtain ⟨oc, st⟩ := p
      have hfs : finalState cfgAllExtra 30 = st := by
        unfold finalState; rw [hr]
      rw [hfs]
      exact (c5_initial_bindings cfgAllExtra 30 oc st hr).1 "E" (by decide)

theorem firstDupAux_none_of_nodup :
    ∀ (procs : List Process) (seen : List String),
      (procs.map (fun p => p.id)).Nodup → (∀ p ∈ procs, p.id ∉ seen) →
      firstDupAux seen procs = none := by
  intro procs
  induction procs with
  | nil => intro seen _ _; rfl
  | cons p rest ih =>
      intro seen hnd hseen
      unfold firstDupAux
      have hns : ¬(seen.contains p.id = true) := by
        intro hx
        exact hseen p (List.mem_cons_self _ _) (List.elem_iff.mp hx)
      rw [if_neg hns]
      simp only [List.map_cons, List.nodup_cons] at hnd
      refine ih (p.id :: seen) hnd.2 ?_
      intro q hq hm
      rcases List.mem_cons.mp hm with he | hm
      · exact hnd.1 (List.mem_map.mpr ⟨q, hq, he⟩)
      · exact hseen q (List.mem_cons_of_mem _ hq) hm

/-- C9 counterexample: with duplicate declared ids but a `"single"`
selection lacking its target, construction fails with the
`targetProcessId`-required error, not the duplicate-identifier error the
claim promises — the output-selection check runs first. -/
theorem c9_counterexample_target_check_preempts_duplicate :
    runFull cfgDupNoTarget 10
      = Except.error
          "targetProcessId is required when outputStrategy is \"single\""
      ∧ firstDupAux [] cfgDupNoTarget.processes = some "P" := ⟨rfl, rfl⟩

/-- C9 (amended): provided the output selection is not a `"single"`
selection missing its target (that configuration error is reported
first), construction fails synchronously with the duplicate-identifier
error whenever two declared units share an identifier, and with the
unresolved-dependency error whenever (with unique ids) some unit names a
dependency that is not a declared unit; construction never invokes any
work function. -/
theorem c9_config_rejection (cfg : WorkflowConfig) (fuel : Nat)
    (hsel : ¬(cfg.outputStrategy = "single" ∧ cfg.targetProcessId = none)) :
    ((¬ (cfg.processes.map (fun p => p.id)).Nodup) →
        ∃ d, runFull cfg fuel = Except.error ("Duplicate process ID: " ++ d))
    ∧ ((cfg.processes.map (fun p => p.id)).Nodup →
        (∃ p ∈ cfg.processes, ∃ d ∈ p.dependencies,
          d ∉ cfg.processes.map (fun q => q.id)) →
        ∃ pd : String × String,
          runFull cfg fuel = Except.error ("Process \"" ++ pd.1
            ++ "\" depends on non-existent process \"" ++ pd.2 ++ "\""))
    ∧ (∀ st, mkEngine cfg = Except.ok st → st.workInvocations = []) := by
  have hbeq : ¬((cfg.outputStrategy == "single"
      && cfg.targetProcessId.isNone) = true) := by
    intro hx
    rw [Bool.and_eq_true] at hx
    exact hsel ⟨beq_iff_eq.mp hx.1, Option.isNone_iff_eq_none.mp hx.2⟩
  refine ⟨?_, ?_, ?_⟩
  · intro hnd
    cases hdup : firstDupAux [] cfg.processes with
    | none => exact absurd (firstDupAux_none cfg.processes [] hdup).1 hnd
    | some d =>
        refine ⟨d, ?_⟩
        unfold runFull mkEngine
        rw [if_neg hbeq]
        simp only [hdup]
        rfl
  · intro hnd hmissing
    have hdup : firstDupAux [] cfg.processes = none :=
      firstDupAux_none_of_nodup cfg.processes [] hnd (by simp)
    cases hmiss : firstMissingDep (cfg.processes.map (fun p => p.id))
        cfg.processes with
    | none =>
        exfalso
        obtain ⟨p, hp, d, hd, hdm⟩ := hmissing
        exact hdm (firstMissingDep_none cfg.processes _ hmiss p hp d hd)
    | some pd =>
        refine ⟨pd, ?_⟩
        unfold runFull mkEngine
        rw [if_neg hbeq]
        simp only [hdup, hmiss]
        rfl
  · intro st hok
    obtain ⟨⟨c0, hc0⟩, -, -, -⟩ := mkEngine_ok_shape hok
    rw [hc0]
    rfl

/-- Witness for C9 at the concrete configuration `cfgDup2` (two units
named `P`, `"combined"` selection): construction fails with the
duplicate-identifier error. -/
theorem c9_config_rejection_witness :
    ∃ d, runFull cfgDup2 10 = Except.error ("Duplicate process ID: " ++ d) := by
  refine (c9_config_rejection cfgDup2 10 ?_).1 ?_
  · intro hx
    exact absurd hx.1 (by decide)
  · decide

theorem shouldExecute_false_of_condThrows {st : EngineState} {p : Process}
    (hc : CondAlwaysThrows p) : shouldExecuteProcess st p = false := by
  obtain ⟨f, hf, he⟩ := hc
  unfold shouldExecuteProcess
  rw [hf]
  obtain ⟨e, hce⟩ := he st.ctx
  simp only [hce]

theorem prim_inv8 {u : String} {a b : EngineState} (hp : Prim a b)
    (h : Inv8 u a) : Inv8 u b := by
  obtain ⟨⟨p, hpl, hcth⟩, hE, hS, hQ, hW⟩ := h
  cases hp with
  | enter id q hq =>
      exact ⟨⟨p, by simpa [enterState] using hpl, hcth⟩,
        by simpa [enterState] using hE, by simpa [enterState] using hS,
        by simpa [enterState] using hQ, by simpa [enterState] using hW⟩
  | runMark id og q hq hc =>
      by_cases he : id = u
      · subst he
        rw [hq] at hpl
        cases hpl
        exact absurd hc (by simp [shouldExecute_false_of_condThrows hcth])
      · refine ⟨⟨p, by simpa [runState, assignStatus] using hpl, hcth⟩,
          by simpa [runState, assignStatus] using hE, ?_, ?_, ?_⟩
        · simp only [runState, assignStatus]
          rw [lookupKey_setKey_other _ _ _ _ (fun hx => he hx.symm)]
          exact hS
        · intro s hs
          simp only [runState, assignStatus, List.mem_append,
            List.mem_singleton] at hs
          rcases hs with hs | hs
          · exact hQ s hs
          · subst hs; simpa using fun hx => he hx
        · simp only [runState, assignStatus, List.mem_append,
            List.mem_singleton]
          rintro (hw | hw)
          · exact hW hw
          · exact he hw.symm
  | skipMark id q hq hc =>
      refine ⟨⟨p, by simpa [skipState, assignStatus] using hpl, hcth⟩,
        by simpa [skipState, assignStatus] using hE, ?_,
        by simpa [skipState, assignStatus] using hQ,
        by simpa [skipState, assignStatus] using hW⟩
      by_cases he : id = u
      · subst he
        simp only [skipState, assignStatus]
        rw [lookupKey_setKey_self]
        exact Or.inr rfl
      · simp only [skipState, assignStatus]
        rw [lookupKey_setKey_other _ _ _ _ (fun hx => he hx.symm)]
        exact hS
  | pushC id =>
      unfold pushCompleted
      split <;>
        exact ⟨⟨p, hpl, hcth⟩, hE, hS, hQ, hW⟩
  | checkC =>
      unfold checkCompletion
      split <;>
        exact ⟨⟨p, hpl, hcth⟩, hE, hS, hQ, hW⟩
  | fuelMark =>
      exact ⟨⟨p, hpl, hcth⟩, hE, hS, hQ, hW⟩

theorem burst_inv8 (u : String) (f : Nat) (t : Task) (st : EngineState)
    (h : Inv8 u st) : Inv8 u (burst f t st) :=
  burst_chain (fun a b => Inv8 u a → Inv8 u b) (fun _ hx => hx)
    (fun hab hbc hx => hbc (hab hx)) (fun hp hx => prim_inv8 hp hx) f t st h

theorem postRoot_inv8 {u : String} {st : EngineState} (h : Inv8 u st) :
    Inv8 u (postRootStep st) := by
  obtain ⟨h1, h2, h3, h4, h5, h6, h7, h8, h9, h10⟩ := postRootStep_fields st
  obtain ⟨⟨p, hpl, hcth⟩, hE, hS, hQ, hW⟩ := h
  rw [Inv8, lookupProcess, h5, h7, h1, h3, h10]
  exact ⟨⟨p, hpl, hcth⟩, hE, hS, hQ, hW⟩

theorem pop_inv8 {u : String} {st : EngineState} {entry : Settlement}
    {rest : List Settlement} (h : Inv8 u st) (hq : st.queue = entry :: rest) :
    Inv8 u { st with queue := rest } := by
  obtain ⟨hP, hE, hS, hQ, hW⟩ := h
  exact ⟨hP, hE, hS,
    fun q hm => hQ q (by rw [hq]; exact List.mem_cons_of_mem _ hm), hW⟩

theorem loop_inv8 (u : String) (cfg : WorkflowConfig) :
    ∀ (f : Nat) (st : EngineState), Inv8 u st → Inv8 u (loop cfg f st).2 := by
  intro f
  induction f with
  | zero =>
      intro st h
      obtain ⟨hP, hE, hS, hQ, hW⟩ := h
      exact ⟨hP, hE, hS, hQ, hW⟩
  | succ n ih =>
      intro st h
      have hpid : ∀ entry rest, st.queue = entry :: rest → entry.pid ≠ u := by
        intro entry rest hq
        exact h.2.2.2.1 entry (by rw [hq]; exact List.mem_cons_self _ _)
      simp only [loop]
      split
      · exact h
      · split
        · exact h
        · next entry rest hq =>
            have hne : entry.pid ≠ u := hpid entry rest hq
            have hpop : Inv8 u { st with queue := rest } := pop_inv8 h hq
            have hsettleFail : ∀ e : Err,
                Inv8 u (settleFailState { st with queue := rest } entry.pid e) := by
              intro e
              obtain ⟨⟨p, hpl, hcth⟩, hE, hS, hQ, hW⟩ := hpop
              refine ⟨⟨p, by simpa [settleFailState, assignStatus] using hpl,
                hcth⟩, ?_, ?_,
                by simpa [settleFailState, assignStatus] using hQ,
                by simpa [settleFailState, assignStatus] using hW⟩
              · simp only [settleFailState, assignStatus]
                rw [lookupKey_setKey_other _ _ _ _ hne.symm]
                exact hE
              · simp only [settleFailState, assignStatus]
                rw [lookupKey_setKey_other _ _ _ _ hne.symm]
                exact hS
            split
            · next v hv =>
                refine ih _ (postRoot_inv8 (burst_inv8 _ _ _ _ ?_))
                obtain ⟨⟨p, hpl, hcth⟩, hE, hS, hQ, hW⟩ := hpop
                refine ⟨⟨p, by simpa [settleOkState, assignStatus] using hpl,
                  hcth⟩, by simpa [settleOkState, assignStatus] using hE, ?_,
                  by simpa [settleOkState, assignStatus] using hQ,
                  by simpa [settleOkState, assignStatus] using hW⟩
                simp only [settleOkState, assignStatus]
                rw [lookupKey_setKey_other _ _ _ _ hne.symm]
                exact hS
            · next e he =>
                split
                · split
                  · exact hsettleFail e
                  · refine ih _ ?_
                    obtain ⟨hP, hE, hS, hQ, hW⟩ := hsettleFail e
                    exact ⟨hP, hE, hS, hQ, hW⟩
                · refine ih _ (postRoot_inv8 (burst_inv8 _ _ _ _ ?_))
                  obtain ⟨⟨p, hpl, hcth⟩, hE, hS, hQ, hW⟩ := hsettleFail e
                  refine ⟨⟨p, by simpa [settleFailBind] using hpl, hcth⟩,
                    by simpa [settleFailBind] using hE,
                    by simpa [settleFailBind] using hS,
                    by simpa [settleFailBind] using hQ,
                    by simpa [settleFailBind] using hW⟩

theorem lookup_states_of_lookupProcess :
    ∀ (procs : List Process) (u : String) (p : Process) (s : Status),
      lookupProcess procs u = some p →
      lookupKey (procs.map (fun q => (q.id, s))) u = some s := by
  intro procs
  induction procs with
  | nil => intro u p s h; simp [lookupProcess] at h
  | cons q rest ih =>
      intro u p s h
      simp only [lookupProcess, List.find?] at h
      by_cases he : q.id = u
      · simp [lookupKey, he]
      · rw [show (decide (q.id = u)) = false by simp [he]] at h
        simp only [List.map_cons, lookupKey, he, if_false]
        exact ih u p s h

/-- C8: for every declared unit whose condition function raises on every
context, the error never escalates: no error is ever recorded against the
unit in the result's error mapping, its work function is never invoked,
its status is only ever `pending` or `skipped` — and in any run in which
every unit settled, exactly `skipped`, just as if the condition had
returned false. -/
theorem c8_condition_error_skips (cfg : WorkflowConfig) (fuel : Nat)
    (oc : Outcome) (st : EngineState) (u : String) (p : Process)
    (hr : runFull cfg fuel = Except.ok (oc, st))
    (hp : lookupProcess cfg.processes u = some p)
    (hc : CondAlwaysThrows p) :
    lookupKey st.errors u = none
      ∧ (lookupKey st.states u = some Status.pending
          ∨ lookupKey st.states u = some Status.skipped)
      ∧ u ∉ st.workInvocations
      ∧ (st.states.all (fun pr => pr.2.settled) = true →
          lookupKey st.states u = some Status.skipped) := by
  unfold runFull at hr
  cases hmk : mkEngine cfg with
  | error e => rw [hmk] at hr; exact absurd hr (by simp [Except.map])
  | ok st0 =>
      rw [hmk] at hr
      simp only [Except.map, Except.ok.injEq] at hr
      obtain ⟨⟨c0, hc0⟩, -, -, -⟩ := mkEngine_ok_shape hmk
      have h0 : Inv8 u st0 := by
        rw [hc0]
        refine ⟨⟨p, ?_, hc⟩, ?_, ?_, ?_, ?_⟩
        · simpa [initState] using hp
        · simp [initState, lookupKey]
        · exact Or.inl (lookup_states_of_lookupProcess cfg.processes u p
            Status.pending hp)
        · simp [initState]
        · simp [initState]
      have hfin : Inv8 u st := by
        have hex : Inv8 u (executeRun cfg fuel st0).2 := by
          simp only [executeRun]
          split
          · exact h0
          · refine loop_inv8 u cfg fuel _
              (postRoot_inv8 (burst_inv8 u fuel _ _ ?_))
            obtain ⟨⟨q, hql, hqc⟩, hE, hS, hQ, hW⟩ := h0
            exact ⟨⟨q, hql, hqc⟩, hE, hS, hQ, hW⟩
        rw [hr] at hex
        exact hex
      obtain ⟨-, hE, hS, -, hW⟩ := hfin
      refine ⟨hE, hS, hW, ?_⟩
      intro hall
      rcases hS with hS | hS
      · exfalso
        have hmem := lookupKey_mem hS
        have := List.all_eq_true.mp hall _ hmem
        simp [Status.settled] at this
      · exact hS

/-- Witness for C8 at the concrete run `cfgCondBoom` (one unit `C` whose
condition always throws): no error recorded, work never invoked, final
status skipped. -/
theorem c8_condition_error_skips_witness :
    lookupKey (finalState cfgCondBoom 30).errors "C" = none
      ∧ (lookupKey (finalState cfgCondBoom 30).states "C"
            = some Status.pending
          ∨ lookupKey (finalState cfgCondBoom 30).states "C"
            = some Status.skipped)
      ∧ "C" ∉ (finalState cfgCondBoom 30).workInvocations := by
  have hok : (runFull cfgCondBoom 30).isOk = true := by decide
  cases hr : runFull cfgCondBoom 30 with
  | error e => rw [hr] at hok; simp [Except.isOk, Except.toBool] at hok
  | ok p =>
      obtain ⟨oc, st⟩ := p
      have hfs : finalState cfgCondBoom 30 = st := by
        unfold finalState; rw [hr]
      rw [hfs]
      have := c8_condition_error_skips cfgCondBoom 30 oc st "C"
        ⟨"C", [], okWork "c", condBoom, .silent⟩ hr rfl
        ⟨fun _ => Except.error "cond boom", rfl, fun c => ⟨"cond boom", rfl⟩⟩
      exact ⟨this.1, this.2.1, this.2.2.1⟩

theorem findReady_pushCompleted (st : EngineState) (id : String) :
    findReadyProcesses (pushCompleted st id) = findReadyProcesses st := by
  unfold pushCompleted
  split <;> rfl

theorem not_ready_of_settled {st : EngineState} {u : String} {s : Status}
    (hnd : (st.states.map Prod.fst).Nodup)
    (hl : lookupKey st.states u = some s) (hs : s.settled = true) :
    u ∉ findReadyProcesses st := by
  intro hmem
  unfold findReadyProcesses at hmem
  rcases List.mem_map.mp hmem with ⟨pr, hpr, hfst⟩
  rcases List.mem_filter.mp hpr with ⟨hmem2, hcond⟩
  simp only [Bool.and_eq_true, beq_iff_eq] at hcond
  obtain ⟨a, b⟩ := pr
  simp only at hfst
  subst hfst
  have hb : b = Status.pending := hcond.1.1
  subst hb
  rw [mem_lookupKey hnd hmem2] at hl
  cases hl
  simp [Status.settled] at hs

theorem burst_frozen (u : String) :
    ∀ (f : Nat) (t : Task) (st : EngineState), TaskAvoids u t →
      (∃ s, lookupKey st.states u = some s ∧ s.settled = true) →
      (st.states.map Prod.fst).Nodup →
      lookupKey (burst f t st).states u = lookupKey st.states u
        ∧ lookupKey (burst f t st).errors u = lookupKey st.errors u
        ∧ lookupKey (burst f t st).ctx.data u = lookupKey st.ctx.data u
        ∧ ((burst f t st).states.map Prod.fst).Nodup := by
  intro f
  induction f with
  | zero => intro t st _ _ hnd; exact ⟨rfl, rfl, rfl, hnd⟩
  | succ n ih =>
      intro t st hav hset hnd
      cases t with
      | launch ids og =>
          cases ids with
          | nil => exact ⟨by simp [burst], by simp [burst], by simp [burst],
              by simpa [burst] using hnd⟩
          | cons id rest =>
              have hne : id ≠ u ∧ u ∉ rest := by
                constructor
                · intro hx; exact hav (hx ▸ List.mem_cons_self _ _)
                · intro hx; exact hav (List.mem_cons_of_mem _ hx)
              obtain ⟨e1, e2, e3, e4⟩ := ih (.exec id og) st
                (fun hx => hne.1 hx) hset hnd
              obtain ⟨s, hs1, hs2⟩ := hset
              obtain ⟨g1, g2, g3, g4⟩ := ih (.launch rest og)
                (burst n (.exec id og) st) hne.2 ⟨s, by rw [e1]; exact hs1, hs2⟩
                e4
              simp only [burst]
              exact ⟨g1.trans e1, g2.trans e2, g3.trans e3, g4⟩
      | exec id og =>
          have hne : id ≠ u := hav
          simp only [burst]
          split
          · exact ⟨rfl, rfl, rfl, hnd⟩
          · next p heq =>
              split
              · refine ⟨?_, ?_, ?_, ?_⟩
                · simp only [runState, assignStatus, enterState]
                  exact lookupKey_setKey_other _ _ _ _ (fun h => hne h.symm)
                · simp [runState, assignStatus, enterState]
                · simp [runState, assignStatus, enterState]
                · simpa [runState, assignStatus, enterState] using
                    nodupKeys_setKey id Status.running hnd
              · obtain ⟨s, hs1, hs2⟩ := hset
                have hmid1 : lookupKey (skipState (enterState st id p) id).states u
                    = lookupKey st.states u := by
                  simp only [skipState, assignStatus, enterState]
                  exact lookupKey_setKey_other _ _ _ _ (fun h => hne h.symm)
                have hmid3 : lookupKey (skipState (enterState st id p) id).ctx.data u
                    = lookupKey st.ctx.data u := by
                  simp only [skipState, assignStatus, enterState, Ctx.set]
                  exact lookupKey_setKey_other _ _ _ _ (fun h => hne h.symm)
                obtain ⟨g1, g2, g3, g4⟩ := ih (.emitB id)
                  (skipState (enterState st id p) id) trivial
                  ⟨s, by rw [hmid1]; exact hs1, hs2⟩
                  (by simpa [skipState, assignStatus, enterState] using
                    nodupKeys_setKey id Status.skipped hnd)
                refine ⟨g1.trans hmid1, ?_, g3.trans hmid3, g4⟩
                rw [g2]
                simp [skipState, assignStatus, enterState]
      | emitB id =>
          simp only [burst]
          obtain ⟨s, hs1, hs2⟩ := hset
          have hp1 : lookupKey (pushCompleted st id).states u
              = lookupKey st.states u := by
            unfold pushCompleted; split <;> rfl
          have hp2 : lookupKey (pushCompleted st id).errors u
              = lookupKey st.errors u := by
            unfold pushCompleted; split <;> rfl
          have hp3 : lookupKey (pushCompleted st id).ctx.data u
              = lookupKey st.ctx.data u := by
            unfold pushCompleted; split <;> rfl
          have hp4 : ((pushCompleted st id).states.map Prod.fst).Nodup := by
            unfold pushCompleted; split <;> exact hnd
          split
          · refine ⟨?_, ?_, ?_, ?_⟩
            · rw [show (checkCompletion (pushCompleted st id)).states
                = (pushCompleted st id).states by
                  unfold checkCompletion; split <;> rfl]
              exact hp1
            · rw [show (checkCompletion (pushCompleted st id)).errors
                = (pushCompleted st id).errors by
                  unfold checkCompletion; split <;> rfl]
              exact hp2
            · rw [show (checkCompletion (pushCompleted st id)).ctx
                = (pushCompleted st id).ctx by
                  unfold checkCompletion; split <;> rfl]
              exact hp3
            · rw [show (checkCompletion (pushCompleted st id)).states
                = (pushCompleted st id).states by
                  unfold checkCompletion; split <;> rfl]
              exact hp4
          · have husettled : u ∉ findReadyProcesses (pushCompleted st id) := by
              refine not_ready_of_settled hp4 ?_ hs2
              rw [hp1]; exact hs1
            obtain ⟨g1, g2, g3, g4⟩ := ih
              (.launch (findReadyProcesses (pushCompleted st id)) .handler)
              (pushCompleted st id) husettled
              ⟨s, by rw [hp1]; exact hs1, hs2⟩ hp4
            exact ⟨g1.trans hp1, g2.trans hp2, g3.trans hp3, g4⟩

theorem exec_invoked (og : Origin) :
    ∀ (f : Nat) (st : EngineState) (id : String), 1 ≤ f →
      (lookupProcess st.processes id).isSome = true →
      id ∈ (burst f (.exec id og) st).invocations := by
  intro f
  cases f with
  | zero => intro st id hf; omega
  | succ n =>
      intro st id _ hsome
      simp only [burst]
      split
      · next heq => rw [heq] at hsome; simp at hsome
      · next p heq =>
          split
          · simp [runState, assignStatus, enterState]
          · have hpre := (burst_prefixes n (.emitB id)
              (skipState (enterState st id p) id)).2.1
            refine hpre.sublist.subset ?_
            simp [skipState, assignStatus, enterState]

theorem burst_launch_invoked (og : Origin) :
    ∀ (ids : List String) (f : Nat) (st : EngineState),
      ids.length + 1 ≤ f →
      (∀ d ∈ ids, (lookupProcess st.processes d).isSome = true) →
      ∀ d ∈ ids, d ∈ (burst f (.launch ids og) st).invocations := by
  intro ids
  induction ids with
  | nil => intro f st _ _ d hd; simp at hd
  | cons id rest ih =>
      intro f st hf hdecl d hd
      cases f with
      | zero => omega
      | succ n =>
          simp only [burst]
          rcases List.mem_cons.mp hd with rfl | hd
          · have h1 := exec_invoked og n st d (by simp at hf; omega)
              (hdecl d (List.mem_cons_self _ _))
            have hpre := (burst_prefixes n (.launch rest og)
              (burst n (.exec d og) st)).2.1
            exact hpre.sublist.subset h1
          · refine ih n (burst n (.exec id og) st) (by simp at hf; omega)
              ?_ d hd
            intro x hx
            rw [(burst_const n (.exec id og) st).1]
            exact hdecl x (List.mem_cons_of_mem _ hx)

/-- C7: when a unit `u` with the `silent` error policy fails, the failure
is fully contained.  Processing that failure settlement (the engine step
the event loop takes next) marks `u` failed, records the error under `u`
in the error map, binds the no-value marker (`has u` true, `get u`
returning `undefined`), and continues scheduling normally: the bind event
published by the no-value binding launches every process that is ready
after `u`'s failure — in particular `u`'s dependents whose remaining
dependencies have settled. -/
theorem c7_silent_failure_contained (cfg : WorkflowConfig) (f : Nat)
    (st : EngineState) (u : String) (e : Err) (rest : List Settlement)
    (og : Origin) (p : Process)
    (hres : st.resolved = false)
    (hq : st.queue = ⟨u, Except.error e, og⟩ :: rest)
    (hp : lookupProcess st.processes u = some p)
    (hpol : p.errorStrategy = EStrat.silent)
    (hN : (st.states.map Prod.fst).Nodup)
    (hdecl : ∀ d ∈ findReadyProcesses
        (settleFailBind (settleFailState { st with queue := rest } u e) u),
      (lookupProcess st.processes d).isSome = true)
    (hf : (findReadyProcesses
        (settleFailBind (settleFailState { st with queue := rest } u e) u)).length
        + 2 ≤ f) :
    ∃ st', loop cfg (f + 1) st = loop cfg f (postRootStep st')
      ∧ lookupKey st'.states u = some Status.failed
      ∧ lookupKey st'.errors u = some e
      ∧ st'.ctx.has u = true
      ∧ st'.ctx.get u = Except.ok Val.undef
      ∧ ∀ d ∈ findReadyProcesses
          (settleFailBind (settleFailState { st with queue := rest } u e) u),
          d ∈ st'.invocations := by
  have hstratF : ¬((processStrategy
      (settleFailState { st with queue := rest } u e) u
        == some EStrat.throwE) = true) := by
    rw [processStrategy_settleFail]
    simp only [processStrategy]
    rw [show lookupProcess
        ({ st with queue := rest } : EngineState).processes u = some p from hp]
    simp [hpol]
  have hmid1 : lookupKey
      (settleFailBind (settleFailState { st with queue := rest } u e) u).states u
      = some Status.failed := by
    simp only [settleFailBind, settleFailState, assignStatus]
    exact lookupKey_setKey_self _ _ _
  have hmid2 : lookupKey
      (settleFailBind (settleFailState { st with queue := rest } u e) u).errors u
      = some e := by
    simp only [settleFailBind, settleFailState, assignStatus]
    exact lookupKey_setKey_self _ _ _
  have hmid3 : lookupKey
      (settleFailBind (settleFailState { st with queue := rest } u e) u).ctx.data u
      = some Val.undef := by
    simp only [settleFailBind, settleFailState, assignStatus, Ctx.set]
    exact lookupKey_setKey_self _ _ _
  have hmidnd : ((settleFailBind (settleFailState { st with queue := rest }
      u e) u).states.map Prod.fst).Nodup := by
    simpa [settleFailBind, settleFailState, assignStatus] using
      nodupKeys_setKey u Status.failed hN
  have hfr := burst_frozen u f (.emitB u)
    (settleFailBind (settleFailState { st with queue := rest } u e) u)
    trivial ⟨Status.failed, hmid1, rfl⟩ hmidnd
  refine ⟨burst f (.emitB u)
    (settleFailBind (settleFailState { st with queue := rest } u e) u),
    ?_, hfr.1.trans hmid1, hfr.2.1.trans hmid2,
    by simp [Ctx.has, containsKey, hfr.2.2.1.trans hmid3],
    by simp [Ctx.get, hfr.2.2.1.trans hmid3], ?_⟩
  · simp only [loop]
    rw [if_neg (by simp [hres])]
    simp only [hq]
    rw [if_neg hstratF]
  intro d hd
  cases f with
  | zero => omega
  | succ n =>
      simp only [burst]
      rw [findReady_pushCompleted]
      split
      · next hready =>
          exact absurd hd (by rw [List.isEmpty_iff] at hready; simp [hready])
      · have hlen : (findReadyProcesses
            (settleFailBind (settleFailState { st with queue := rest } u e)
              u)).length + 1 ≤ n := by omega
        refine burst_launch_invoked Origin.handler _ n _ hlen ?_ d hd
        intro x hx
        rw [show (pushCompleted (settleFailBind (settleFailState
            { st with queue := rest } u e) u) u).processes
            = st.processes by
          unfold pushCompleted
          split <;> simp [settleFailBind, settleFailState, assignStatus]]
        exact hdecl x hx

/-- Witness for C7 at the concrete state `stC7` (unit `u` running,
failure settlement queued, pending dependent `d`). -/
theorem c7_silent_failure_contained_witness :
    ∃ st', loop cfgC7 11 stC7 = loop cfgC7 10 (postRootStep st')
      ∧ lookupKey st'.states "u" = some Status.failed
      ∧ lookupKey st'.errors "u" = some "boom"
      ∧ st'.ctx.has "u" = true
      ∧ st'.ctx.get "u" = Except.ok Val.undef
      ∧ ∀ d ∈ findReadyProcesses
          (settleFailBind (settleFailState { stC7 with queue := ([] : List Settlement) }
            "u" "boom") "u"),
          d ∈ st'.invocations := by
  exact c7_silent_failure_contained cfgC7 10 stC7 "u" "boom" [] Origin.handler
    ⟨"u", [], failWork "boom", none, .silent⟩ rfl rfl rfl rfl (by decide)
    (by decide) (by decide)

theorem foldl_add_shift :
    ∀ (l : List Process) (a : Nat),
      l.foldl (fun acc p => acc + p.dependencies.length + 2) a
        = a + (l.map (fun p => p.dependencies.length + 2)).sum := by
  intro l
  induction l with
  | nil => intro a; simp
  | cons p rest ih =>
      intro a
      simp only [List.foldl_cons, List.map_cons, List.sum_cons]
      rw [ih]
      omega

theorem dfsPotential_le_total (procs : List Process) (V : List String) :
    dfsPotential procs V
      ≤ ((procs.map (fun p => p.dependencies.length + 2)).sum) := by
  unfold dfsPotential
  refine List.Sublist.sum_le_sum ?_ ?_
  · exact (List.filter_sublist _).map _
  · intro x hx
    omega

theorem dfsFuel_ge (procs : List Process) (V : List String) :
    dfsPotential procs V + 1 ≤ dfsFuel procs := by
  unfold dfsFuel
  rw [foldl_add_shift]
  have := dfsPotential_le_total procs V
  omega

theorem dfsPotential_mono (procs : List Process) {V V' : List String}
    (h : ∀ x, x ∈ V → x ∈ V') :
    dfsPotential procs V' ≤ dfsPotential procs V := by
  unfold dfsPotential
  refine List.Sublist.sum_le_sum ?_ ?_
  · refine (List.monotone_filter_right procs ?_).map _
    intro p hp
    simp only [Bool.not_eq_true'] at hp ⊢
    by_cases hm : p.id ∈ V
    · have hc : V'.contains p.id = true := List.elem_iff.mpr (h _ hm)
      rw [hc] at hp
      cases hp
    · cases hcv : V.contains p.id with
      | false => rfl
      | true => exact absurd (List.elem_iff.mp hcv) hm
  · intro x hx
    omega

theorem lookupProcess_isSome_of_mem_ids :
    ∀ (procs : List Process) {a : String},
      a ∈ procs.map (fun p => p.id) → ∃ pr, lookupProcess procs a = some pr := by
  intro procs
  induction procs with
  | nil => intro a h; simp at h
  | cons q rest ih =>
      intro a h
      by_cases he : q.id = a
      · refine ⟨q, ?_⟩
        unfold lookupProcess
        rw [List.find?_cons_of_pos _ (by simp [he])]
      · have h' : a ∈ rest.map (fun p => p.id) := by
          simp only [List.map_cons, List.mem_cons] at h
          rcases h with h | h
          · exact absurd h.symm he
          · exact h
        obtain ⟨pr, hpr⟩ := ih h'
        refine ⟨pr, ?_⟩
        unfold lookupProcess at hpr ⊢
        rw [List.find?_cons_of_neg _ (by simp [he])]
        exact hpr

theorem dfsPotential_visit :
    ∀ (procs : List Process) {a : String} {pr : Process} (V : List String),
      lookupProcess procs a = some pr → a ∉ V →
      dfsPotential procs (a :: V) + pr.dependencies.length + 2
        ≤ dfsPotential procs V := by
  intro procs
  induction procs with
  | nil => intro a pr V h _; simp [lookupProcess] at h
  | cons q rest ih =>
      intro a pr V h hnV
      rw [lookupProcess] at h
      by_cases he : q.id = a
      · rw [List.find?_cons_of_pos _ (by simp [he])] at h
        simp only [Option.some.injEq] at h
        subst h
        unfold dfsPotential
        have hkeep : (!V.contains q.id) = true := by
          simp only [Bool.not_eq_true']
          cases hcv : V.contains q.id with
          | false => rfl
          | true => exact absurd (he ▸ List.elem_iff.mp hcv) hnV
        rw [show List.filter (fun p => !(a :: V).contains p.id) (q :: rest)
            = List.filter (fun p => !(a :: V).contains p.id) rest from
          List.filter_cons_of_neg (by simp [he])]
        rw [show List.filter (fun p => !V.contains p.id) (q :: rest)
            = q :: List.filter (fun p => !V.contains p.id) rest from
          List.filter_cons_of_pos hkeep]
        simp only [List.map_cons, List.sum_cons]
        have hmono := @dfsPotential_mono rest V (a :: V)
          (fun x hx => List.mem_cons_of_mem a hx)
        unfold dfsPotential at hmono
        omega
      · rw [List.find?_cons_of_neg _ (by simp [he])] at h
        have hib := ih V h hnV
        unfold dfsPotential
        have hcc : (a :: V).contains q.id = V.contains q.id := by
          cases hcv : V.contains q.id with
          | true => simp [List.elem_iff.mp hcv]
          | false =>
              cases hcv' : (a :: V).contains q.id with
              | false => rfl
              | true =>
                  rcases List.mem_cons.mp (List.elem_iff.mp hcv') with h' | h'
                  · exact absurd h' he
                  · have hc2 : V.contains q.id = true := List.elem_iff.mpr h'
                    rw [hc2] at hcv
                    cases hcv
        cases hcv : V.contains q.id with
        | true =>
            rw [show List.filter (fun p => !(a :: V).contains p.id) (q :: rest)
                = List.filter (fun p => !(a :: V).contains p.id) rest from
              List.filter_cons_of_neg (by rw [hcc, hcv]; simp)]
            rw [show List.filter (fun p => !V.contains p.id) (q :: rest)
                = List.filter (fun p => !V.contains p.id) rest from
              List.filter_cons_of_neg (by rw [hcv]; simp)]
            unfold dfsPotential at hib
            omega
        | false =>
            rw [show List.filter (fun p => !(a :: V).contains p.id) (q :: rest)
                = q :: List.filter (fun p => !(a :: V).contains p.id) rest from
              List.filter_cons_of_pos (by rw [hcc, hcv]; simp)]
            rw [show List.filter (fun p => !V.contains p.id) (q :: rest)
                = q :: List.filter (fun p => !V.contains p.id) rest from
              List.filter_cons_of_pos (by rw [hcv]; simp)]
            simp only [List.map_cons, List.sum_cons]
            unfold dfsPotential at hib
            omega

theorem dfsGo_visited_mono (procs : List Process) :
    ∀ (fuel : Nat) (call : DfsCall) (V S : List String),
      ∀ x ∈ V, x ∈ (dfsGo procs fuel call V S).2 := by
  intro fuel
  induction fuel with
  | zero => intro call V S x hx; exact hx
  | succ n ih =>
      intro call V S x hx
      cases call with
      | visit p =>
          simp only [dfsGo]
          exact ih _ _ _ x (List.mem_cons_of_mem _ hx)
      | scan p ds =>
          cases ds with
          | nil => exact hx
          | cons d rest =>
              simp only [dfsGo]
              split
              · split
                · exact hx
                · exact ih _ _ _ x hx
              · cases hrec : dfsGo procs n (.visit d) V S with
                | mk ob v =>
                    have hv : ∀ y ∈ V, y ∈ v := by
                      intro y hy
                      have := ih (.visit d) V S y hy
                      rw [hrec] at this
                      exact this
                    cases ob with
                    | none => simp only [hrec]; exact hv x hx
                    | some b =>
                        cases b with
                        | false =>
                            simp only [hrec]
                            exact ih _ _ _ x (hv x hx)
                        | true => simp only [hrec]; exact hv x hx

theorem dfsGo_visit_mem (procs : List Process) {fuel : Nat}
    (hf : 1 ≤ fuel) (p : String) (V S : List String) :
    p ∈ (dfsGo procs fuel (.visit p) V S).2 := by
  cases fuel with
  | zero => omega
  | succ n =>
      simp only [dfsGo]
      exact dfsGo_visited_mono procs n _ _ _ p (List.mem_cons_self _ _)

theorem lookupProcess_mem {procs : List Process} {a : String} {pr : Process}
    (h : lookupProcess procs a = some pr) : pr ∈ procs ∧ pr.id = a := by
  unfold lookupProcess at h
  refine ⟨List.mem_of_find?_eq_some h, ?_⟩
  have := List.find?_some h
  simpa using this

theorem dfsGo_no_fuelOut (procs : List Process)
    (hclosed : ∀ p ∈ procs, ∀ d ∈ p.dependencies,
      d ∈ procs.map (fun q => q.id)) :
    ∀ (fuel : Nat) (call : DfsCall) (V S : List String),
      (match call with
        | .visit p => p ∈ procs.map (fun q => q.id) ∧ p ∉ V
            ∧ 1 + dfsPotential procs V ≤ fuel
        | .scan _ ds => (∀ d ∈ ds, d ∈ procs.map (fun q => q.id))
            ∧ 1 + ds.length + dfsPotential procs V ≤ fuel) →
      (dfsGo procs fuel call V S).1 ≠ none := by
  intro fuel
  induction fuel with
  | zero =>
      intro call V S hcall
      cases call with
      | visit p => omega
      | scan p ds => omega
  | succ n ih =>
      intro call V S hcall
      cases call with
      | visit p =>
          obtain ⟨hmem, hnV, hfuel⟩ := hcall
          obtain ⟨pr, hpr⟩ := lookupProcess_isSome_of_mem_ids procs hmem
          obtain ⟨hprm, hprid⟩ := lookupProcess_mem hpr
          simp only [dfsGo, hpr]
          refine ih (.scan p pr.dependencies) (p :: V) (p :: S) ?_
          refine ⟨fun d hd => hclosed pr hprm d hd, ?_⟩
          have hv := dfsPotential_visit procs V hpr hnV
          omega
      | scan p ds =>
          cases ds with
          | nil => simp [dfsGo]
          | cons d rest =>
              obtain ⟨hids, hfuel⟩ := hcall
              simp only [dfsGo]
              split
              · split
                · simp
                · refine ih (.scan p rest) V S ?_
                  refine ⟨fun x hx => hids x (List.mem_cons_of_mem _ hx), ?_⟩
                  simp only [List.length_cons] at hfuel
                  omega
              · next hdnv =>
                  have hdnv' : d ∉ V := by
                    intro hx
                    exact hdnv (List.elem_iff.mpr hx)
                  have hfn : 1 + dfsPotential procs V ≤ n := by
                    simp only [List.length_cons] at hfuel
                    omega
                  have hvis := ih (.visit d) V S
                    ⟨hids d (List.mem_cons_self _ _), hdnv', hfn⟩
                  cases hrec : dfsGo procs n (.visit d) V S with
                  | mk ob v =>
                      cases ob with
                      | none => exact absurd (by rw [hrec]) hvis
                      | some b =>
                          cases b with
                          | true => simp [hrec]
                          | false =>
                              simp only [hrec]
                              refine ih (.scan p rest) v S ?_
                              refine ⟨fun x hx =>
                                hids x (List.mem_cons_of_mem _ hx), ?_⟩
                              obtain ⟨prd, hprd⟩ :=
                                lookupProcess_isSome_of_mem_ids procs
                                  (hids d (List.mem_cons_self _ _))
                              have hdv : d ∈ v := by
                                have := @dfsGo_visit_mem procs n
                                  (by omega) d V S
                                rw [hrec] at this
                                exact this
                              have hVv : ∀ x ∈ V, x ∈ v := by
                                intro x hx
                                have := dfsGo_visited_mono procs n
                                  (.visit d) V S x hx
                                rw [hrec] at this
                                exact this
                              have hmono : dfsPotential procs v
                                  ≤ dfsPotential procs (d :: V) := by
                                refine dfsPotential_mono procs ?_
                                intro x hx
                                rcases List.mem_cons.mp hx with rfl | hx
                                · exact hdv
                                · exact hVv x hx
                              have hstep := dfsPotential_visit procs V hprd
                                hdnv'
                              simp only [List.length_cons] at hfuel
                              omega

theorem chain_reach (procs : List Process) :
    ∀ (T : List String) (p : String), StackChain procs (p :: T) →
      ∀ d ∈ p :: T, Relation.ReflTransGen (Edge procs) d p := by
  intro T
  induction T with
  | nil =>
      intro p _ d hd
      rcases List.mem_cons.mp hd with rfl | h
      · exact Relation.ReflTransGen.refl
      · simp at h
  | cons b rest ih =>
      intro p hch d hd
      obtain ⟨hedge, hch'⟩ := hch
      rcases List.mem_cons.mp hd with rfl | h
      · exact Relation.ReflTransGen.refl
      · exact (ih b hch' d h).tail hedge

theorem dfsGo_sound (procs : List Process) :
    ∀ (fuel : Nat) (call : DfsCall) (V S : List String),
      (match call with
        | .visit p => StackChain procs (p :: S)
        | .scan p ds => (∃ T, S = p :: T) ∧ StackChain procs S
            ∧ ∀ d ∈ ds, Edge procs p d) →
      (dfsGo procs fuel call V S).1 = some true →
      HasCycle procs := by
  intro fuel
  induction fuel with
  | zero =>
      intro call V S _ heq
      simp [dfsGo] at heq
  | succ n ih =>
      intro call V S hinv heq
      cases call with
      | visit p =>
          simp only [dfsGo] at heq
          cases hlp : lookupProcess procs p with
          | some pr =>
              simp only [hlp] at heq
              refine ih (.scan p pr.dependencies) (p :: V) (p :: S)
                ⟨⟨S, rfl⟩, hinv, ?_⟩ heq
              intro d hd
              unfold Edge edgeB
              rw [hlp]
              exact List.elem_iff.mpr hd
          | none =>
              simp only [hlp] at heq
              exact ih (.scan p []) (p :: V) (p :: S)
                ⟨⟨S, rfl⟩, hinv, by simp⟩ heq
      | scan p ds =>
          cases ds with
          | nil => simp [dfsGo] at heq
          | cons d rest =>
              obtain ⟨⟨T, hS⟩, hchain, hedges⟩ := hinv
              subst hS
              simp only [dfsGo] at heq
              split at heq
              · split at heq
                · next hs =>
                    have hdmem : d ∈ p :: T := List.elem_iff.mp hs
                    have hreach := chain_reach procs T p hchain d hdmem
                    have hpd : Edge procs p d :=
                      hedges d (List.mem_cons_self _ _)
                    exact ⟨p, Relation.TransGen.head' hpd hreach⟩
                · exact ih (.scan p rest) V (p :: T)
                    ⟨⟨T, rfl⟩, hchain,
                      fun x hx => hedges x (List.mem_cons_of_mem _ hx)⟩ heq
              · cases hrec : dfsGo procs n (.visit d) V (p :: T) with
                | mk ob v =>
                    cases ob with
                    | none => rw [hrec] at heq; simp at heq
                    | some b =>
                        cases b with
                        | true =>
                            refine ih (.visit d) V (p :: T) ?_ (by rw [hrec])
                            exact ⟨hedges d (List.mem_cons_self _ _), hchain⟩
                        | false =>
                            rw [hrec] at heq
                            exact ih (.scan p rest) v (p :: T)
                              ⟨⟨T, rfl⟩, hchain,
                                fun x hx =>
                                  hedges x (List.mem_cons_of_mem _ hx)⟩ heq

theorem detectAux_sound (procs : List Process) :
    ∀ (rest : List Process) (V : List String) (i : String),
      detectAux procs rest V = .cycleAt i → HasCycle procs := by
  intro rest
  induction rest with
  | nil => intro V i h; simp [detectAux] at h
  | cons p rest' ih =>
      intro V i h
      simp only [detectAux] at h
      split at h
      · exact ih V i h
      · cases hrec : dfsGo procs (dfsFuel procs) (.visit p.id) V [] with
        | mk ob v =>
            cases ob with
            | none => rw [hrec] at h; cases h
            | some b =>
                cases b with
                | true =>
                    exact dfsGo_sound procs (dfsFuel procs) (.visit p.id) V []
                      trivial (by rw [hrec])
                | false =>
                    rw [hrec] at h
                    exact ih v i h

theorem black_reach {procs : List Process} {V S : List String}
    (hB : BlackOK procs V S) {b c : String}
    (hbV : b ∈ V) (hbS : b ∉ S)
    (h : Relation.ReflTransGen (Edge procs) b c) : c ∈ V ∧ c ∉ S := by
  induction h with
  | refl => exact ⟨hbV, hbS⟩
  | tail hm hedge ih =>
      obtain ⟨hmV, hmS⟩ := ih
      exact (hB _ hmV hmS).1 _ hedge

theorem blackok_push {procs : List Process} {V S : List String} {d : String}
    (hd : d ∉ V) (hB : BlackOK procs V S) :
    BlackOK procs (d :: V) (d :: S) := by
  intro b hbV hbS
  have hbd : b ≠ d := fun h => hbS (h ▸ List.mem_cons_self _ _)
  have hbV' : b ∈ V := by
    rcases List.mem_cons.mp hbV with h | h
    · exact absurd h hbd
    · exact h
  have hbS' : b ∉ S := fun h => hbS (List.mem_cons_of_mem _ h)
  obtain ⟨hcl, hnc⟩ := hB b hbV' hbS'
  refine ⟨?_, hnc⟩
  intro e he
  obtain ⟨heV, heS⟩ := hcl e he
  refine ⟨List.mem_cons_of_mem _ heV, ?_⟩
  intro hx
  rcases List.mem_cons.mp hx with rfl | hx
  · exact hd heV
  · exact heS hx

theorem blackok_pop {procs : List Process} {V T : List String} {p : String}
    (hB : BlackOK procs V (p :: T)) (hpV : p ∈ V)
    (hdeps : ∀ e, Edge procs p e → e ∈ V ∧ e ∉ p :: T) :
    BlackOK procs V T := by
  intro b hbV hbT
  by_cases hbp : b = p
  · subst hbp
    refine ⟨?_, ?_⟩
    · intro e he
      obtain ⟨heV, heS⟩ := hdeps e he
      exact ⟨heV, fun h => heS (List.mem_cons_of_mem _ h)⟩
    · intro hcyc
      obtain ⟨m, hbm, hmb⟩ :=
        (Relation.TransGen.head'_iff).mp hcyc
      obtain ⟨hmV, hmS⟩ := hdeps m hbm
      obtain ⟨_, hbS'⟩ := black_reach hB hmV hmS hmb
      exact hbS' (List.mem_cons_self _ _)
  · have hbS : b ∉ p :: T := by
      intro hx
      rcases List.mem_cons.mp hx with h | h
      · exact hbp h
      · exact hbT h
    obtain ⟨hcl, hnc⟩ := hB b hbV hbS
    refine ⟨?_, hnc⟩
    intro e he
    obtain ⟨heV, heS⟩ := hcl e he
    exact ⟨heV, fun h => heS (List.mem_cons_of_mem _ h)⟩

theorem dfsGo_complete (procs : List Process) :
    ∀ (fuel : Nat) (call : DfsCall) (V S v : List String),
      (match call with
        | .visit p => p ∉ V ∧ (∀ x ∈ S, x ∈ V) ∧ BlackOK procs V S
        | .scan p ds => (∃ T, S = p :: T) ∧ p ∈ V
            ∧ (∀ x ∈ S, x ∈ V) ∧ BlackOK procs V S
            ∧ (∀ e, Edge procs p e → e ∈ ds ∨ (e ∈ V ∧ e ∉ S))) →
      dfsGo procs fuel call V S = (some false, v) →
      (∀ x ∈ V, x ∈ v) ∧
      (match call with
        | .visit p => p ∈ v ∧ BlackOK procs v S
        | .scan p _ => ∀ T, S = p :: T → BlackOK procs v T) := by
  intro fuel
  induction fuel with
  | zero =>
      intro call V S v _ heq
      simp [dfsGo] at heq
  | succ n ih =>
      intro call V S v hinv heq
      cases call with
      | visit p =>
          obtain ⟨hpV, hSV, hB⟩ := hinv
          simp only [dfsGo] at heq
          have hstep : ∀ (ds : List String),
              (∀ e, Edge procs p e → e ∈ ds) →
              dfsGo procs n (.scan p ds) (p :: V) (p :: S) = (some false, v) →
              (∀ x ∈ V, x ∈ v) ∧ (p ∈ v ∧ BlackOK procs v S) := by
            intro ds hds heq'
            have hinv' : (∃ T, (p :: S) = p :: T) ∧ p ∈ p :: V
                ∧ (∀ x ∈ p :: S, x ∈ p :: V) ∧ BlackOK procs (p :: V) (p :: S)
                ∧ (∀ e, Edge procs p e →
                    e ∈ ds ∨ (e ∈ p :: V ∧ e ∉ p :: S)) := by
              refine ⟨⟨S, rfl⟩, List.mem_cons_self _ _, ?_,
                blackok_push hpV hB, fun e he => Or.inl (hds e he)⟩
              intro x hx
              rcases List.mem_cons.mp hx with rfl | hx
              · exact List.mem_cons_self _ _
              · exact List.mem_cons_of_mem _ (hSV x hx)
            obtain ⟨hmono, hpop⟩ := ih (.scan p ds) (p :: V) (p :: S) v
              hinv' heq'
            refine ⟨fun x hx => hmono x (List.mem_cons_of_mem _ hx),
              hmono p (List.mem_cons_self _ _), hpop S rfl⟩
          cases hlp : lookupProcess procs p with
          | some pr =>
              simp only [hlp] at heq
              refine hstep pr.dependencies ?_ heq
              intro e he
              unfold Edge edgeB at he
              rw [hlp] at he
              exact List.elem_iff.mp he
          | none =>
              simp only [hlp] at heq
              refine hstep [] ?_ heq
              intro e he
              unfold Edge edgeB at he
              rw [hlp] at he
              cases he
      | scan p ds =>
          obtain ⟨⟨T, hS⟩, hpV, hSV, hB, hdeps⟩ := hinv
          subst hS
          cases ds with
          | nil =>
              simp only [dfsGo, Prod.mk.injEq] at heq
              obtain ⟨_, rfl⟩ := heq
              refine ⟨fun x hx => hx, ?_⟩
              intro T' hT'
              have hTT : T = T' := by
                simpa using hT'
              subst hTT
              refine blackok_pop hB hpV ?_
              intro e he
              rcases hdeps e he with h | h
              · cases h
              · exact h
          | cons d rest =>
              simp only [dfsGo] at heq
              split at heq
              · next hc =>
                  split at heq
                  · simp at heq
                  · next hs =>
                      have hdV : d ∈ V := List.elem_iff.mp hc
                      have hdS : d ∉ p :: T := fun h =>
                        hs (List.elem_iff.mpr h)
                      refine ih (.scan p rest) V (p :: T) v
                        ⟨⟨T, rfl⟩, hpV, hSV, hB, ?_⟩ heq
                      intro e he
                      rcases hdeps e he with h | h
                      · rcases List.mem_cons.mp h with rfl | h
                        · exact Or.inr ⟨hdV, hdS⟩
                        · exact Or.inl h
                      · exact Or.inr h
              · next hc =>
                  have hdV : d ∉ V := fun h => hc (List.elem_iff.mpr h)
                  cases hrec : dfsGo procs n (.visit d) V (p :: T) with
                  | mk ob w =>
                      cases ob with
                      | none => rw [hrec] at heq; simp at heq
                      | some b =>
                          cases b with
                          | true => rw [hrec] at heq; simp at heq
                          | false =>
                              rw [hrec] at heq
                              obtain ⟨hVw, hdw, hBw⟩ :=
                                ih (.visit d) V (p :: T) w
                                  ⟨hdV, hSV, hB⟩ hrec
                              have hdS : d ∉ p :: T := fun h => hdV (hSV d h)
                              have hdeps' : ∀ e, Edge procs p e →
                                  e ∈ rest ∨ (e ∈ w ∧ e ∉ p :: T) := by
                                intro e he
                                rcases hdeps e he with h | h
                                · rcases List.mem_cons.mp h with rfl | h
                                  · exact Or.inr ⟨hdw, hdS⟩
                                  · exact Or.inl h
                                · exact Or.inr ⟨hVw e h.1, h.2⟩
                              obtain ⟨hwv, hpop⟩ :=
                                ih (.scan p rest) w (p :: T) v
                                  ⟨⟨T, rfl⟩, hVw p hpV,
                                    fun x hx => hVw x (hSV x hx), hBw,
                                    hdeps'⟩ heq
                              exact ⟨fun x hx => hwv x (hVw x hx), hpop⟩

theorem edge_src_mem {procs : List Process} {a b : String}
    (h : Edge procs a b) : a ∈ procs.map (fun q => q.id) := by
  unfold Edge edgeB at h
  cases hlp : lookupProcess procs a with
  | none => rw [hlp] at h; cases h
  | some pr =>
      obtain ⟨hm, hid⟩ := lookupProcess_mem hlp
      exact List.mem_map.mpr ⟨pr, hm, hid⟩

theorem detectAux_clean (procs : List Process) :
    ∀ (rest : List Process) (V : List String),
      BlackOK procs V [] →
      (∀ q ∈ procs, q.id ∈ V ∨ q ∈ rest) →
      detectAux procs rest V = .clean →
      ¬ HasCycle procs := by
  intro rest
  induction rest with
  | nil =>
      intro V hB hcover _ hcy
      obtain ⟨a, htg⟩ := hcy
      obtain ⟨q, hq, hqid⟩ := List.mem_map.mp
        (edge_src_mem (Relation.TransGen.head'_iff.mp htg).choose_spec.1)
      have haV : a ∈ V := by
        rcases hcover q hq with h | h
        · exact hqid ▸ h
        · simp at h
      exact (hB a haV (by simp)).2 htg
  | cons p rest' ih =>
      intro V hB hcover hclean
      simp only [detectAux] at hclean
      split at hclean
      · next hc =>
          refine ih V hB ?_ hclean
          intro q hq
          rcases hcover q hq with h | h
          · exact Or.inl h
          · rcases List.mem_cons.mp h with rfl | h
            · exact Or.inl (List.elem_iff.mp hc)
            · exact Or.inr h
      · next hc =>
          cases hrec : dfsGo procs (dfsFuel procs) (.visit p.id) V [] with
          | mk ob w =>
              cases ob with
              | none => rw [hrec] at hclean; cases hclean
              | some b =>
                  cases b with
                  | true => rw [hrec] at hclean; cases hclean
                  | false =>
                      rw [hrec] at hclean
                      obtain ⟨hVw, hpw, hBw⟩ :=
                        dfsGo_complete procs (dfsFuel procs)
                          (.visit p.id) V [] w
                          ⟨fun h => hc (List.elem_iff.mpr h),
                            fun x hx => absurd hx (List.not_mem_nil x),
                            hB⟩ hrec
                      refine ih w hBw ?_ hclean
                      intro q hq
                      rcases hcover q hq with h | h
                      · exact Or.inl (hVw _ h)
                      · rcases List.mem_cons.mp h with rfl | h
                        · exact Or.inl hpw
                        · exact Or.inr h

theorem detectAux_resolves (procs : List Process)
    (hclosed : ∀ p ∈ procs, ∀ d ∈ p.dependencies,
      d ∈ procs.map (fun q => q.id)) :
    ∀ (rest : List Process), (∀ q ∈ rest, q ∈ procs) →
      ∀ (V : List String), detectAux procs rest V ≠ .fuelOut := by
  intro rest
  induction rest with
  | nil => intro _ V; simp [detectAux]
  | cons p rest' ih =>
      intro hsub V
      simp only [detectAux]
      split
      · exact ih (fun q hq => hsub q (List.mem_cons_of_mem _ hq)) V
      · next hc =>
          cases hrec : dfsGo procs (dfsFuel procs) (.visit p.id) V [] with
          | mk ob w =>
              cases ob with
              | none =>
                  exfalso
                  refine dfsGo_no_fuelOut procs hclosed (dfsFuel procs)
                    (.visit p.id) V []
                    ⟨List.mem_map.mpr
                      ⟨p, hsub p (List.mem_cons_self _ _), rfl⟩,
                      fun h => hc (List.elem_iff.mpr h), ?_⟩ (by rw [hrec])
                  have := dfsFuel_ge procs V
                  omega
              | some b =>
                  cases b with
                  | true => simp [hrec]
                  | false =>
                      simp only [hrec]
                      exact ih
                        (fun q hq => hsub q (List.mem_cons_of_mem _ hq)) w

/-- C4: the construction-time cycle check raises a cycle error exactly when
the declared dependency relation has a cycle.  For every process list whose
dependencies all refer to declared ids (the state of affairs when
`detectCircularDependencies` runs, since missing dependencies were rejected
just before), the detector reports a cycle iff some id reaches itself
through one or more dependency edges; in particular every acyclic graph —
disconnected or diamond-shaped alike — is accepted. -/
theorem c4_cycle_detection (procs : List Process)
    (hclosed : ∀ p ∈ procs, ∀ d ∈ p.dependencies,
      d ∈ procs.map (fun q => q.id)) :
    (detectCircularDependencies procs).foundCycle = true
      ↔ HasCycle procs := by
  constructor
  · intro h
    unfold detectCircularDependencies at h
    cases hres : detectAux procs procs [] with
    | cycleAt i => exact detectAux_sound procs procs [] i hres
    | clean => rw [hres] at h; cases h
    | fuelOut => rw [hres] at h; cases h
  · intro hcy
    unfold detectCircularDependencies
    cases hres : detectAux procs procs [] with
    | cycleAt i => rfl
    | fuelOut =>
        exact absurd hres (detectAux_resolves procs hclosed procs
          (fun q hq => hq) [])
    | clean =>
        exact absurd hcy (detectAux_clean procs procs []
          (fun b hb _ => absurd hb (List.not_mem_nil b))
          (fun q hq => Or.inr hq) hres)

/-- Witness for C4: the two-process cycle `a → b → a` has closed
dependencies and the theorem, fed the detector's verdict on it, certifies
a semantic cycle. -/
theorem c4_cycle_detection_witness :
    (∀ p ∈ procsCyc, ∀ d ∈ p.dependencies,
      d ∈ procsCyc.map (fun q => q.id)) ∧ HasCycle procsCyc :=
  ⟨by decide, (c4_cycle_detection procsCyc (by decide)).mp (by decide)⟩

/-- The diamond-plus-disconnected-root graph is accepted by the
detector. -/
theorem detect_diamond_clean :
    detectCircularDependencies procsDiamond = .clean := by decide

end AsyncFlow
